import Mathlib

/-!
# terraform-switcher, `lib/list_versions.go`

A shallow embedding of the version-listing code of `lib/list_versions.go`
and theorems about it.

Modelling conventions.

* A Go `string` is a `List Char` (`GoString`): the sequence of its runes. This
  covers every Go string that is valid UTF-8. Byte offsets, which only matter
  for `for i := range result` in `getTFLatest`, are recovered with `runeLen`.
* `regexp` is modelled by a small backtracking matcher (`Regex.run`) for the
  fragment of the syntax that the patterns of this file use: single-character
  classes, `+` and `*` on a class, concatenation and `?`. Go documents its
  match as the leftmost one that a backtracking search finds first; capture
  groups do not change which text `FindString`, `FindAllString` and
  `MatchString` report and are dropped.
* A function of the package returns a `Run`: a normal return, a run-time
  panic, or the end of the process through `logger.Fatalf`.
* Logging and printing are not modelled.
-/

namespace Lib

/-! ## Strings -/

/-- A Go string, as the list of its runes. -/
abbrev GoString := List Char

/-- A Go `error` value; `Option GoError` is an error that may be `nil`. -/
abbrev GoError := String

/-- Number of bytes of the UTF-8 encoding of a rune. -/
def runeLen (c : Char) : Nat :=
  if c.toNat < 0x80 then 1
  else if c.toNat < 0x800 then 2
  else if c.toNat < 0x10000 then 3
  else 4

/-- Drop the trailing elements that satisfy `p`. -/
def dropRightWhile (p : Char → Bool) : GoString → GoString
  | [] => []
  | c :: t =>
    match dropRightWhile p t with
    | [] => if p c then [] else [c]
    | r => c :: r

/-- Go `strings.Trim(s, cutset)`: `s` without its leading and trailing runes
that occur in `cutset`. -/
def Trim (s cutset : GoString) : GoString :=
  dropRightWhile (fun c => cutset.contains c) (s.dropWhile (fun c => cutset.contains c))

/-- Go `strings.Split(s, "\n")`: the pieces of `s` between newlines; always
at least one piece. -/
def splitLines : GoString → List GoString
  | [] => [[]]
  | c :: t =>
    if c = '\n' then [] :: splitLines t
    else
      match splitLines t with
      | [] => [[c]]
      | l :: ls => (c :: l) :: ls

/-- Go `strings.HasSuffix`. -/
def HasSuffix (s suffix : GoString) : Bool :=
  suffix.isSuffixOf s

/-! ## Regular expressions -/

/-- A class matching one rune. -/
inductive CharClass where
  /-- a literal rune, also written escaped: `/`, `\/`, `\.`, `\-`, `"`, `0` -/
  | lit (c : Char)
  /-- the class `\d`: an ASCII digit -/
  | digit
  /-- the dot `.`: any rune but a newline -/
  | anyNotNL
  /-- a bracket class such as `[a-zA-z]`: a union of inclusive ranges -/
  | ranges (rs : List (Char × Char))
  deriving DecidableEq

/-- Does the class accept the rune? -/
def CharClass.test : CharClass → Char → Bool
  | .lit c, x => x = c
  | .digit, x => decide (48 ≤ x.toNat) && decide (x.toNat ≤ 57)
  | .anyNotNL, x => x ≠ '\n'
  | .ranges rs, x => rs.any (fun r => decide (r.1.toNat ≤ x.toNat) && decide (x.toNat ≤ r.2.toNat))

/-- The regular expressions used by this file. -/
inductive Regex where
  /-- one rune of a class -/
  | one (c : CharClass)
  /-- greedy `c+` -/
  | plus (c : CharClass)
  /-- greedy `c*` -/
  | star (c : CharClass)
  /-- concatenation -/
  | seq (a b : Regex)
  /-- greedy `a?`: `a` is tried before the empty match -/
  | opt (a : Regex)
  deriving DecidableEq

/-- Greedy repetition of a class: take a rune and go on, and fall back to
stopping here. -/
def starK {β : Type} (c : CharClass) (k : GoString → Option β) : GoString → Option β
  | [] => k []
  | x :: t =>
    if c.test x then
      match starK c k t with
      | some r => some r
      | none => k (x :: t)
    else k (x :: t)

/-- Backtracking match of `r` at the head of the text, then the continuation
`k` on what is left; alternatives are tried in priority order. -/
def Regex.run {β : Type} : Regex → (GoString → Option β) → GoString → Option β
  | .one c, k, s =>
    match s with
    | [] => none
    | x :: t => if c.test x then k t else none
  | .plus c, k, s =>
    match s with
    | [] => none
    | x :: t => if c.test x then starK c k t else none
  | .star c, k, s => starK c k s
  | .seq a b, k, s => Regex.run a (Regex.run b k) s
  | .opt a, k, s =>
    match Regex.run a k s with
    | some r => some r
    | none => k s

/-- A compiled pattern: `^` at its head (`bol`), the expression itself, and
`$` at its end (`eol`). Without the `m` flag, `^` and `$` match only at the
two ends of the text. -/
structure Regexp where
  bol : Bool
  re : Regex
  eol : Bool
  deriving DecidableEq

/-- The final continuation: accept, at the end of the text only when the
pattern ends in `$`; the result is the text after the match. -/
def Regexp.accept (p : Regexp) (t : GoString) : Option GoString :=
  if p.eol then (if t.isEmpty then some t else none) else some t

/-- Match the pattern at the head of the text; the result is the text after
the match. -/
def Regexp.matchHere (p : Regexp) (s : GoString) : Option GoString :=
  p.re.run p.accept s

/-- Leftmost match in `s`: the matched text and the text after it. `atStart`
says whether `s` begins at the start of the whole text. -/
def Regexp.search (p : Regexp) : Bool → GoString → Option (GoString × GoString)
  | atStart, [] =>
    if p.bol && !atStart then none
    else
      match p.matchHere [] with
      | some rest => some ([], rest)
      | none => none
  | atStart, c :: t =>
    match (if p.bol && !atStart then none else p.matchHere (c :: t)) with
    | some rest => some ((c :: t).take ((c :: t).length - rest.length), rest)
    | none => Regexp.search p false t

/-- Go `(*Regexp).MatchString`. -/
def Regexp.MatchString (p : Regexp) (s : GoString) : Bool :=
  (p.search true s).isSome

/-- Go `(*Regexp).FindString`: the text of the leftmost match, or the empty
string. -/
def Regexp.FindString (p : Regexp) (s : GoString) : GoString :=
  match p.search true s with
  | some (m, _) => m
  | none => []

/-- The loop of Go `(*Regexp).FindAllString(s, -1)`. `s` is the text from the
current position, `prevEndHere` says that the previous match ended at the
current position. An empty match right after the previous match is skipped,
and after an empty match at the current position the search moves one rune
forward. -/
def Regexp.allMatches (p : Regexp) : Nat → Bool → Bool → GoString → List GoString
  | 0, _, _, _ => []
  | fuel + 1, atStart, prevEndHere, s =>
    match p.search atStart s with
    | none => []
    | some (m, rest) =>
      if rest.length = s.length then
        -- an empty match at the current position
        let more :=
          match s with
          | [] => []
          | _ :: t => Regexp.allMatches p fuel false false t
        if prevEndHere then more else m :: more
      else
        m :: Regexp.allMatches p fuel false true rest

/-- Go `(*Regexp).FindAllString(s, -1)`: the successive non-overlapping
matches; `nil` is the empty list. -/
def Regexp.FindAllString (p : Regexp) (s : GoString) : List GoString :=
  p.allMatches (s.length + 2) true false s

/-! ## Outcomes and the network -/

/-- How a call ends: a normal return, a run-time panic, or the end of the
process (`logger.Fatalf`). -/
inductive Run (α : Type) where
  | ret (a : α)
  | panic
  | exit
  deriving DecidableEq

/-- What `http.Get` hands back on success: the status code and the result of
reading the body with `io.ReadAll`. -/
structure Response where
  StatusCode : Nat
  Body : Except GoError GoString

/-- The network: `http.Get` as a function of the URL. -/
abbrev HttpGet := GoString → Except GoError Response

/-- A network on which every URL answers 200 with the given body. -/
def serving (body : GoString) : HttpGet :=
  fun _ => .ok { StatusCode := 200, Body := .ok body }

/-! ## The patterns of `list_versions.go` -/

/-- The literal rune `c` as an expression. -/
def chr (c : Char) : Regex := .one (.lit c)

/-- The class `[a-zA-z]`, as written in the source (the second range is `A-z`). -/
def letters : CharClass := .ranges [('a', 'z'), ('A', 'z')]

/-- The expression `\d+\.\d+\.\d+`. -/
def reXYZ : Regex :=
  .seq (.plus .digit) (.seq (chr '.') (.seq (.plus .digit) (.seq (chr '.') (.plus .digit))))

/-- The expression `-[a-zA-z]+\d*`. -/
def rePre : Regex :=
  .seq (chr '-') (.seq (.plus letters) (.star .digit))

/-- The stable pattern `\/?(\d+\.\d+\.\d+)\/?"` of `getVersionsFromBody` and
`getTFLatest`. -/
def semverStable : Regexp :=
  { bol := false,
    re := .seq (.opt (chr '/')) (.seq reXYZ (.seq (.opt (chr '/')) (chr '"'))),
    eol := false }

/-- The pattern `\/?(\d+\.\d+\.\d+)(-[a-zA-z]+\d*)?/?"` of
`getVersionsFromBody` with pre-releases. -/
def semverPre : Regexp :=
  { bol := false,
    re := .seq (.opt (chr '/'))
      (.seq reXYZ (.seq (.opt rePre) (.seq (.opt (chr '/')) (chr '"')))),
    eol := false }

/-- The expression that the text `version`, pasted into a pattern, stands
for: a digit or another plain rune matches itself and `.` matches any rune but
a newline. `none` when `version` is empty or holds another metacharacter of
the pattern syntax: the parse of such a pattern is not modelled. The `{1}`
that follows the pasted text repeats its last rune once, which changes
nothing. -/
def reOfVersion : GoString → Option Regex
  | [] => none
  | [c] =>
    if c = '.' then some (.one .anyNotNL)
    else if "\\+*?()|[]{}^$".toList.contains c then none
    else some (chr c)
  | c :: d :: t =>
    if c = '.' then (reOfVersion (d :: t)).map (Regex.seq (.one .anyNotNL))
    else if "\\+*?()|[]{}^$".toList.contains c then none
    else (reOfVersion (d :: t)).map (Regex.seq (chr c))

/-- The pattern of the pre-release branch of `getTFLatestImplicit`, namely
`fmt.Sprintf` of `\/?(%s{1}\.\d+\-[a-zA-z]+\d*)\/?"` with `version`. -/
def semverImplicit (version : GoString) : Option Regexp :=
  (reOfVersion version).map fun v =>
    { bol := false,
      re := .seq (.opt (chr '/'))
        (.seq v (.seq (chr '.') (.seq (.plus .digit) (.seq rePre
          (.seq (.opt (chr '/')) (chr '"')))))),
      eol := false }

/-- The pattern `^(\d+\.\d+\.\d+)(-[a-zA-z]+\d*)?$` of `validVersionFormat`. -/
def semverRegexFull : Regexp :=
  { bol := true, re := .seq reXYZ (.opt rePre), eol := true }

/-- The pattern `^(\d+\.\d+)$` of `validMinorVersionFormat`. -/
def semverRegexMinor : Regexp :=
  { bol := true, re := .seq (.plus .digit) (.seq (chr '.') (.plus .digit)), eol := true }

/-! ## The functions of `list_versions.go` -/

/-- The source's `getVersionsFromBody`: append to `tflist` every match of the
mode's pattern in `body`, trimmed of `/` and `"`. -/
def getVersionsFromBody (body : GoString) (preRelease : Bool) (tflist : List GoString) :
    List GoString :=
  let r := if preRelease then semverPre else semverStable
  let matches_ := r.FindAllString body
  tflist ++ matches_.map (fun m => Trim m "/\"".toList)

/-- The source's `getTFURLBody`: fetch the page of the mirror. Every failure
ends the process through `logger.Fatalf`. -/
def getTFURLBody (http : HttpGet) (mirrorURL : GoString) : Run (GoString × Option GoError) :=
  let mirrorURL := if HasSuffix mirrorURL "/".toList then mirrorURL else mirrorURL ++ "/".toList
  match http mirrorURL with
  | .error _ => .exit
  | .ok resp =>
    if resp.StatusCode ≠ 200 then .exit
    else
      match resp.Body with
      | .error _ => .exit
      | .ok body => .ret (body, none)

/-- The source's `getTFList`. -/
def getTFList (http : HttpGet) (mirrorURL : GoString) (preRelease : Bool) :
    Run (List GoString × Option GoError) :=
  match getTFURLBody http mirrorURL with
  | .panic => .panic
  | .exit => .exit
  | .ret (_, some err) => .ret ([], some err)
  | .ret (result, none) => .ret (getVersionsFromBody result preRelease [], none)

/-- The loop `for i := range result` of `getTFLatest`: `runes` is what is left
of `result`, `i` the byte offset of its first rune. `bodyLines[i]` panics when
`i` is out of range. -/
def getTFLatestLoop (bodyLines : List GoString) : GoString → Nat → Run (GoString × Option GoError)
  | [], _ => .ret ([], none)
  | c :: runes, i =>
    match bodyLines.get? i with
    | none => .panic
    | some line =>
      if semverStable.MatchString line then
        .ret (Trim (semverStable.FindString line) "/\"".toList, none)
      else getTFLatestLoop bodyLines runes (i + runeLen c)

/-- The source's `getTFLatest`. -/
def getTFLatest (http : HttpGet) (mirrorURL : GoString) : Run (GoString × Option GoError) :=
  match getTFURLBody http mirrorURL with
  | .panic => .panic
  | .exit => .exit
  | .ret (_, some err) => .ret ([], some err)
  | .ret (result, none) => getTFLatestLoop (splitLines result) result 0

/-- The loop `for i := range versions` of `getTFLatestImplicit`. -/
def firstLineMatch (r : Regexp) : List GoString → Option GoString
  | [] => none
  | line :: rest =>
    if r.MatchString line then some (Trim (r.FindString line) "/\"".toList)
    else firstLineMatch r rest

/-- The external constraint resolver `SemVerParser(&version, tflist)`. -/
abbrev Resolver := GoString → List GoString → GoString × Option GoError

/-- The source's `getTFLatestImplicit`. `none` stands for a `version` whose
pattern is outside the modelled syntax. -/
def getTFLatestImplicit (SemVerParser : Resolver) (http : HttpGet) (mirrorURL : GoString)
    (preRelease : Bool) (version : GoString) : Option (Run (GoString × Option GoError)) :=
  if preRelease then
    match getTFURLBody http mirrorURL with
    | .panic => some .panic
    | .exit => some .exit
    | .ret (_, some error) => some (.ret ([], some error))
    | .ret (body, none) =>
      match semverImplicit version with
      | none => none
      | some r =>
        match firstLineMatch r (splitLines body) with
        | some trimstr => some (.ret (trimstr, none))
        | none => some (.ret ([], none))
  else
    match getTFList http mirrorURL false with
    | .panic => some .panic
    | .exit => some .exit
    | .ret (tflist, _) =>
      match SemVerParser ("~> ".toList ++ version) tflist with
      | (_, some err) => some (.ret ([], some err))
      | (semv, none) => some (.ret (semv, none))

/-- The source's `removeDuplicateVersions`, with the map `encountered` as the
list of its keys. -/
def removeDuplicateVersionsLoop :
    List GoString → List GoString → List GoString → List GoString
  | _, result, [] => result
  | encountered, result, val :: elements =>
    let versionOnly := Trim val " *recent".toList
    if encountered.contains versionOnly then
      removeDuplicateVersionsLoop encountered result elements
    else
      removeDuplicateVersionsLoop (versionOnly :: encountered) (result ++ [val]) elements

/-- The source's `removeDuplicateVersions`. -/
def removeDuplicateVersions (elements : List GoString) : List GoString :=
  removeDuplicateVersionsLoop [] [] elements

/-- The source's `validVersionFormat`. -/
def validVersionFormat (version : GoString) : Bool :=
  semverRegexFull.MatchString version

/-- The source's `validMinorVersionFormat`. -/
def validMinorVersionFormat (version : GoString) : Bool :=
  semverRegexMinor.MatchString version

/-! ## The language of an expression -/

/-- The words of an expression. -/
def Regex.Matches : Regex → GoString → Prop
  | .one c, w => ∃ x, c.test x = true ∧ w = [x]
  | .plus c, w => w ≠ [] ∧ ∀ x ∈ w, c.test x = true
  | .star c, w => ∀ x ∈ w, c.test x = true
  | .seq a b, w => ∃ u v, w = u ++ v ∧ Regex.Matches a u ∧ Regex.Matches b v
  | .opt a, w => w = [] ∨ Regex.Matches a w

/-- The classes that occur in an expression. -/
def Regex.classes : Regex → List CharClass
  | .one c => [c]
  | .plus c => [c]
  | .star c => [c]
  | .seq a b => Regex.classes a ++ Regex.classes b
  | .opt a => Regex.classes a

/-! ## Notions of the specification -/

/-- An ASCII digit. -/
def IsAsciiDigit (x : Char) : Prop :=
  '0'.toNat ≤ x.toNat ∧ x.toNat ≤ '9'.toNat

/-- A non-empty run of ASCII digits. -/
def IsDigits (a : GoString) : Prop :=
  a ≠ [] ∧ ∀ x ∈ a, IsAsciiDigit x

/-- A stable version string: digits, a dot, digits, a dot, digits. -/
def IsStableVersion (v : GoString) : Prop :=
  ∃ a b c, IsDigits a ∧ IsDigits b ∧ IsDigits c ∧ v = a ++ '.' :: (b ++ '.' :: c)

/-- The link of a directory listing to the version `v`: `<a href="/v/">`. -/
def linkText (v : GoString) : GoString :=
  "<a href=\"/".toList ++ v ++ "/\">".toList

/-- A line of a directory listing: `<a href="/v/">v</a>`. -/
def listingLine (v : GoString) : GoString :=
  linkText v ++ v ++ "</a>".toList

/-- Go `strings.Join(lines, "\n")`. -/
def joinLines : List GoString → GoString
  | [] => []
  | [l] => l
  | l :: l' :: ls => l ++ '\n' :: joinLines (l' :: ls)

/-- The runes of the marker `" *recent"`, as a set. -/
def markerRunes : List Char := [' ', '*', 'r', 'e', 'c', 'n', 't']

/-- The comparison key of an entry: the entry without its leading and
trailing runes from the set of marker runes. -/
def comparisonKey (val : GoString) : GoString :=
  dropRightWhile (fun c => decide (c ∈ markerRunes))
    (val.dropWhile (fun c => decide (c ∈ markerRunes)))

/-- First occurrences by key: walk the list and keep an element exactly when
its key differs from the key of every earlier element; `earlier` holds the
elements already passed, kept or not. -/
def keepFirstByKey : List GoString → List GoString → List GoString
  | _, [] => []
  | earlier, val :: rest =>
    if earlier.all (fun e => decide (comparisonKey e ≠ comparisonKey val)) then
      val :: keepFirstByKey (earlier ++ [val]) rest
    else keepFirstByKey (earlier ++ [val]) rest

/-- The class `[A-Za-z]` of the specification: the ASCII letters. -/
def asciiLetters : CharClass := .ranges [('A', 'Z'), ('a', 'z')]

/-- The full-version pattern as the specification writes it,
`^\d+\.\d+\.\d+(-[A-Za-z]+\d*)?$`. -/
def fullVersionSpec : Regexp :=
  { bol := true,
    re := .seq reXYZ (.opt (.seq (chr '-') (.seq (.plus asciiLetters) (.star .digit)))),
    eol := true }

/-! ## Effects of the top-level operations -/

/-- What an operation does to the outside world. -/
inductive Event where
  /-- a call of `http.Get` on the URL -/
  | httpGet (url : GoString)
  /-- a text written to the standard output with `fmt.Printf` -/
  | printf (text : GoString)
  /-- a call of `logger.Fatalf`, which ends the process -/
  | fatalf
  /-- a call of `PrintInvalidMinorTFVersion`, the usage error of the package -/
  | PrintInvalidMinorTFVersion
  deriving DecidableEq

/-- The events of a call of `getTFURLBody`: one `http.Get` on the URL with its
final slash, and `logger.Fatalf` when the fetch fails. -/
def getTFURLBodyEvents (http : HttpGet) (mirrorURL : GoString) : List Event :=
  let url := if HasSuffix mirrorURL "/".toList then mirrorURL else mirrorURL ++ "/".toList
  match getTFURLBody http mirrorURL with
  | .exit => [.httpGet url, .fatalf]
  | _ => [.httpGet url]

/-- The source's `ShowLatestImplicitVersion`, as the events it causes in
order. A call of `getTFLatestImplicit` fetches the page once, in either of its
branches. `none` stands for a `requestedVersion` whose pattern is outside the
modelled syntax. -/
def ShowLatestImplicitVersion (SemVerParser : Resolver) (http : HttpGet)
    (requestedVersion mirrorURL : GoString) (preRelease : Bool) : Option (List Event) :=
  if validMinorVersionFormat requestedVersion then
    match getTFLatestImplicit SemVerParser http mirrorURL preRelease requestedVersion with
    | none => none
    | some (.ret (tfversion, _)) =>
      if tfversion.length > 0 then
        some (getTFURLBodyEvents http mirrorURL ++ [.printf (tfversion ++ "\n".toList)])
      else
        some (getTFURLBodyEvents http mirrorURL ++ [.fatalf])
    | some _ => some (getTFURLBodyEvents http mirrorURL)
  else
    some [.PrintInvalidMinorTFVersion]

/-! ## Soundness and completeness of the matcher -/

theorem starK_sound {β : Type} (c : CharClass) (k : GoString → Option β) :
    ∀ (s : GoString) (x : β), starK c k s = some x →
      ∃ u v, s = u ++ v ∧ (∀ y ∈ u, c.test y = true) ∧ k v = some x := by
  intro s
  induction s with
  | nil =>
    intro x h
    exact ⟨[], [], rfl, by simp, h⟩
  | cons a t ih =>
    intro x h
    unfold starK at h
    by_cases ha : c.test a = true
    · rw [if_pos ha] at h
      cases hk : starK c k t with
      | some r =>
        rw [hk] at h
        obtain ⟨u, v, hs, hu, hv⟩ := ih r hk
        refine ⟨a :: u, v, by rw [hs]; rfl, ?_, ?_⟩
        · intro y hy
          rcases List.mem_cons.mp hy with rfl | hy
          · exact ha
          · exact hu y hy
        · rw [hv]; exact h
      | none =>
        rw [hk] at h
        exact ⟨[], a :: t, rfl, by simp, h⟩
    · rw [if_neg ha] at h
      exact ⟨[], a :: t, rfl, by simp, h⟩

theorem starK_complete {β : Type} (c : CharClass) (k : GoString → Option β) (v : GoString)
    (hv : (k v).isSome = true) :
    ∀ u : GoString, (∀ y ∈ u, c.test y = true) → (starK c k (u ++ v)).isSome = true := by
  intro u
  induction u with
  | nil =>
    intro _
    cases v with
    | nil => simpa [starK] using hv
    | cons b t =>
      simp only [List.nil_append]
      unfold starK
      by_cases hb : c.test b = true
      · rw [if_pos hb]
        cases hk : starK c k t with
        | some r => simp
        | none => simpa using hv
      · rw [if_neg hb]; exact hv
  | cons a u ih =>
    intro hu
    have ha : c.test a = true := hu a (List.mem_cons_self _ _)
    have ih2 := ih (fun y hy => hu y (List.mem_cons_of_mem _ hy))
    simp only [List.cons_append]
    unfold starK
    rw [if_pos ha]
    cases hk : starK c k (u ++ v) with
    | some r => simp
    | none => rw [hk] at ih2; simp at ih2

theorem Regex.run_sound {β : Type} :
    ∀ (r : Regex) (k : GoString → Option β) (s : GoString) (x : β), r.run k s = some x →
      ∃ u v, s = u ++ v ∧ r.Matches u ∧ k v = some x := by
  intro r
  induction r with
  | one c =>
    intro k s x h
    cases s with
    | nil => simp [Regex.run] at h
    | cons a t =>
      simp only [Regex.run] at h
      by_cases ha : c.test a = true
      · rw [if_pos ha] at h
        exact ⟨[a], t, rfl, ⟨a, ha, rfl⟩, h⟩
      · rw [if_neg ha] at h; cases h
  | plus c =>
    intro k s x h
    cases s with
    | nil => simp [Regex.run] at h
    | cons a t =>
      simp only [Regex.run] at h
      by_cases ha : c.test a = true
      · rw [if_pos ha] at h
        obtain ⟨u, v, hs, hu, hv⟩ := starK_sound c k t x h
        refine ⟨a :: u, v, by rw [hs]; rfl, ⟨by simp, ?_⟩, hv⟩
        intro y hy
        rcases List.mem_cons.mp hy with rfl | hy
        · exact ha
        · exact hu y hy
      · rw [if_neg ha] at h; cases h
  | star c =>
    intro k s x h
    exact starK_sound c k s x h
  | seq a b iha ihb =>
    intro k s x h
    simp only [Regex.run] at h
    obtain ⟨u, v, hs, hu, hv⟩ := iha _ s x h
    obtain ⟨u2, v2, hs2, hu2, hv2⟩ := ihb k v x hv
    exact ⟨u ++ u2, v2, by rw [hs, hs2, List.append_assoc], ⟨u, u2, rfl, hu, hu2⟩, hv2⟩
  | opt a iha =>
    intro k s x h
    simp only [Regex.run] at h
    cases hk : Regex.run a k s with
    | some r =>
      rw [hk] at h
      obtain ⟨u, v, hs, hu, hv⟩ := iha k s r hk
      exact ⟨u, v, hs, Or.inr hu, by rw [hv]; exact h⟩
    | none =>
      rw [hk] at h
      exact ⟨[], s, rfl, Or.inl rfl, h⟩

theorem Regex.run_complete {β : Type} :
    ∀ (r : Regex) (k : GoString → Option β) (u v : GoString), r.Matches u →
      (k v).isSome = true → (r.run k (u ++ v)).isSome = true := by
  intro r
  induction r with
  | one c =>
    intro k u v hm hk
    obtain ⟨x, hx, rfl⟩ := hm
    simp only [List.singleton_append, Regex.run, if_pos hx]
    exact hk
  | plus c =>
    intro k u v hm hk
    obtain ⟨hne, hall⟩ := hm
    cases u with
    | nil => exact absurd rfl hne
    | cons a u =>
      have ha : c.test a = true := hall a (List.mem_cons_self _ _)
      simp only [List.cons_append, Regex.run, if_pos ha]
      exact starK_complete c k v hk u (fun y hy => hall y (List.mem_cons_of_mem _ hy))
  | star c =>
    intro k u v hm hk
    exact starK_complete c k v hk u hm
  | seq a b iha ihb =>
    intro k u v hm hk
    obtain ⟨u1, u2, rfl, h1, h2⟩ := hm
    simp only [Regex.run, List.append_assoc]
    exact iha _ u1 (u2 ++ v) h1 (ihb k u2 v h2 hk)
  | opt a iha =>
    intro k u v hm hk
    simp only [Regex.run]
    cases hr : Regex.run a k (u ++ v) with
    | some r => simp
    | none =>
      rcases hm with rfl | hm
      · simpa using hk
      · have := iha k u v hm hk
        rw [hr] at this; simp at this


/-! ## Matching at a position, searching, and all matches -/

theorem Regexp.matchHere_sound (p : Regexp) (s rest : GoString)
    (h : p.matchHere s = some rest) :
    ∃ w, s = w ++ rest ∧ p.re.Matches w ∧ (p.eol = true → rest = []) := by
  obtain ⟨u, v, hs, hu, hv⟩ := Regex.run_sound p.re p.accept s rest h
  unfold Regexp.accept at hv
  cases he : p.eol with
  | false =>
    rw [he] at hv
    simp at hv
    exact ⟨u, by rw [hs, hv], hu, by simp⟩
  | true =>
    rw [he] at hv
    cases v with
    | nil =>
      simp at hv
      subst hv
      exact ⟨u, hs, hu, fun _ => rfl⟩
    | cons a t => simp at hv

theorem Regexp.matchHere_complete (p : Regexp) (w t : GoString) (hm : p.re.Matches w)
    (ht : p.eol = true → t = []) : (p.matchHere (w ++ t)).isSome = true := by
  apply Regex.run_complete p.re p.accept w t hm
  unfold Regexp.accept
  cases he : p.eol with
  | false => simp
  | true => simp [ht he]

theorem Regexp.search_flag (p : Regexp) (hb : p.bol = false) (a : Bool) (s : GoString) :
    p.search a s = p.search false s := by
  cases s with
  | nil => simp [Regexp.search, hb]
  | cons c t => simp [Regexp.search, hb]

theorem Regexp.search_skip (p : Regexp) (hb : p.bol = false) (a : Bool) (c : Char)
    (t : GoString) (h : p.matchHere (c :: t) = none) :
    p.search a (c :: t) = p.search false t := by
  simp [Regexp.search, hb, h]

theorem Regexp.search_hit (p : Regexp) (hb : p.bol = false) (a : Bool) (w rest : GoString)
    (h : p.matchHere (w ++ rest) = some rest) :
    p.search a (w ++ rest) = some (w, rest) := by
  cases hs : w ++ rest with
  | nil =>
    have hw : w = [] := (List.append_eq_nil.mp hs).1
    have hr : rest = [] := (List.append_eq_nil.mp hs).2
    subst hw; subst hr
    have h' : p.matchHere [] = some [] := h
    simp [Regexp.search, hb, h']
  | cons c t =>
    rw [hs] at h
    simp only [Regexp.search, hb, Bool.false_and, Bool.false_eq_true, if_false, h]
    rw [← hs]
    simp

theorem Regexp.search_sound (p : Regexp) :
    ∀ (s : GoString) (a : Bool) (m rest : GoString), p.search a s = some (m, rest) →
      ∃ pre, s = pre ++ (m ++ rest) ∧ p.matchHere (m ++ rest) = some rest ∧
        p.re.Matches m := by
  intro s
  induction s with
  | nil =>
    intro a m rest h
    unfold Regexp.search at h
    split at h
    · cases h
    · cases hm : p.matchHere [] with
      | none => rw [hm] at h; cases h
      | some r =>
        rw [hm] at h
        simp only [Option.some.injEq, Prod.mk.injEq] at h
        obtain ⟨rfl, rfl⟩ := h
        obtain ⟨w, hw, hmat, _⟩ := p.matchHere_sound [] r hm
        have hw2 : w = [] := (List.append_eq_nil.mp hw.symm).1
        have hr2 : r = [] := (List.append_eq_nil.mp hw.symm).2
        subst hw2; subst hr2
        exact ⟨[], rfl, hm, hmat⟩
  | cons c t ih =>
    intro a m rest h
    unfold Regexp.search at h
    split at h
    · rename_i r hr
      simp only [Option.some.injEq, Prod.mk.injEq] at h
      obtain ⟨hm, rfl⟩ := h
      split at hr
      · cases hr
      · obtain ⟨w, hw, hmat, _⟩ := p.matchHere_sound (c :: t) r hr
        have hlen : (c :: t).length - r.length = w.length := by
          rw [hw]; simp
        rw [hlen, hw, List.take_left] at hm
        subst hm
        exact ⟨[], by simpa using hw, by rw [← hw]; exact hr, hmat⟩
    · obtain ⟨pre, hpre, h1, h2⟩ := ih false m rest h
      exact ⟨c :: pre, by rw [hpre]; rfl, h1, h2⟩

theorem Regexp.search_none (p : Regexp) :
    ∀ (s : GoString) (a : Bool), (∀ s', s' <:+ s → p.matchHere s' = none) →
      p.search a s = none := by
  intro s
  induction s with
  | nil =>
    intro a h
    have h0 := h [] (List.suffix_refl _)
    unfold Regexp.search
    split
    · rfl
    · rw [h0]
  | cons c t ih =>
    intro a h
    have h0 := h (c :: t) (List.suffix_refl _)
    unfold Regexp.search
    rw [h0]
    have : (if (p.bol && !a) = true then (none : Option GoString) else none) = none := by
      split <;> rfl
    rw [this]
    exact ih false (fun s' hs' => h s' (hs'.trans (List.suffix_cons c t)))

theorem Regexp.search_length (p : Regexp) (s : GoString) (a : Bool) (m rest : GoString)
    (h : p.search a s = some (m, rest)) : m.length + rest.length ≤ s.length := by
  obtain ⟨pre, hpre, _, _⟩ := p.search_sound s a m rest h
  rw [hpre]; simp

theorem Regexp.allMatches_zero (p : Regexp) (a b : Bool) (s : GoString) :
    p.allMatches 0 a b s = [] := rfl

theorem Regexp.allMatches_succ (p : Regexp) (fuel : Nat) (a b : Bool) (s : GoString) :
    p.allMatches (fuel + 1) a b s =
      match p.search a s with
      | none => []
      | some (m, rest) =>
        if rest.length = s.length then
          if b then
            (match s with
              | [] => []
              | _ :: t => p.allMatches fuel false false t)
          else
            m :: (match s with
              | [] => []
              | _ :: t => p.allMatches fuel false false t)
        else
          m :: p.allMatches fuel false true rest := rfl

theorem Regexp.allMatches_mem (p : Regexp) :
    ∀ (fuel : Nat) (a b : Bool) (s m : GoString), m ∈ p.allMatches fuel a b s →
      p.re.Matches m := by
  intro fuel
  induction fuel with
  | zero => intro a b s m h; simp [Regexp.allMatches_zero] at h
  | succ n ih =>
    intro a b s m h
    rw [Regexp.allMatches_succ] at h
    cases hs : p.search a s with
    | none => rw [hs] at h; simp at h
    | some mr =>
      obtain ⟨m0, rest⟩ := mr
      rw [hs] at h
      obtain ⟨_, _, _, hm0⟩ := p.search_sound s a m0 rest hs
      simp only at h
      split at h
      · have hmore : ∀ x, x ∈ (match s with
            | [] => []
            | _ :: t => p.allMatches n false false t) → p.re.Matches x := by
          intro x hx
          cases s with
          | nil => simp at hx
          | cons c t => exact ih false false t x hx
        split at h
        · exact hmore m h
        · rcases List.mem_cons.mp h with rfl | h
          · exact hm0
          · exact hmore m h
      · rcases List.mem_cons.mp h with rfl | h
        · exact hm0
        · exact ih false true rest m h

theorem Regexp.allMatches_fuel (p : Regexp) :
    ∀ (fuel fuel' : Nat) (a b : Bool) (s : GoString), s.length < fuel → s.length < fuel' →
      p.allMatches fuel a b s = p.allMatches fuel' a b s := by
  intro fuel
  induction fuel with
  | zero => intro fuel' a b s h; omega
  | succ n ih =>
    intro fuel' a b s h h'
    cases fuel' with
    | zero => omega
    | succ n' =>
      rw [Regexp.allMatches_succ, Regexp.allMatches_succ]
      cases hs : p.search a s with
      | none => rfl
      | some mr =>
        obtain ⟨m0, rest⟩ := mr
        have hlen := p.search_length s a m0 rest hs
        simp only
        by_cases he : rest.length = s.length
        · rw [if_pos he, if_pos he]
          cases s with
          | nil => rfl
          | cons c t =>
            simp only
            rw [ih n' false false t (by simp at h; omega) (by simp at h'; omega)]
        · rw [if_neg he, if_neg he]
          rw [ih n' false true rest (by omega) (by omega)]

/-- Unfolding of `FindAllString` for a pattern that has no empty match. -/
theorem Regexp.allMatches_unfold (p : Regexp) (hne : ∀ w, p.re.Matches w → w ≠ [])
    (a b : Bool) (s : GoString) :
    p.allMatches (s.length + 2) a b s =
      match p.search a s with
      | none => []
      | some (m, rest) => m :: p.allMatches (rest.length + 2) false true rest := by
  rw [Regexp.allMatches_succ]
  cases hs : p.search a s with
  | none => rfl
  | some mr =>
    obtain ⟨m0, rest⟩ := mr
    have hlen := p.search_length s a m0 rest hs
    obtain ⟨_, _, _, hm0⟩ := p.search_sound s a m0 rest hs
    have hpos : 0 < m0.length := List.length_pos.mpr (hne m0 hm0)
    simp only
    rw [if_neg (by omega)]
    rw [p.allMatches_fuel (s.length + 1) (rest.length + 2) false true rest (by omega) (by omega)]


/-! ## Trimming -/

theorem dropRightWhile_all (p : Char → Bool) :
    ∀ b : GoString, (∀ x ∈ b, p x = true) → dropRightWhile p b = [] := by
  intro b
  induction b with
  | nil => intro _; rfl
  | cons c t ih =>
    intro h
    unfold dropRightWhile
    rw [ih (fun x hx => h x (List.mem_cons_of_mem _ hx))]
    simp [h c (List.mem_cons_self _ _)]

theorem dropRightWhile_core (p : Char → Bool) (b : GoString) (hb : ∀ x ∈ b, p x = true) :
    ∀ core : GoString, core ≠ [] → (∀ x ∈ core, p x = false) →
      dropRightWhile p (core ++ b) = core := by
  intro core
  induction core with
  | nil => intro h; exact absurd rfl h
  | cons c t ih =>
    intro _ hall
    have hc : p c = false := hall c (List.mem_cons_self _ _)
    cases t with
    | nil =>
      simp only [List.cons_append, List.nil_append]
      unfold dropRightWhile
      rw [dropRightWhile_all p b hb]
      simp [hc]
    | cons d t' =>
      have ih2 := ih (by simp) (fun x hx => hall x (List.mem_cons_of_mem _ hx))
      simp only [List.cons_append] at ih2 ⊢
      unfold dropRightWhile
      rw [ih2]

theorem dropWhile_stop (p : Char → Bool) (c : Char) (t : GoString) (hc : p c = false) :
    ∀ a : GoString, (∀ x ∈ a, p x = true) → (a ++ c :: t).dropWhile p = c :: t := by
  intro a
  induction a with
  | nil =>
    intro _
    rw [List.nil_append, List.dropWhile_cons_of_neg (by simp [hc])]
  | cons x a ih =>
    intro h
    rw [List.cons_append, List.dropWhile_cons_of_pos (h x (List.mem_cons_self _ _))]
    exact ih (fun y hy => h y (List.mem_cons_of_mem _ hy))

/-- Trimming gives back the core of a text whose core has no rune of the
cutset and whose two margins are made of runes of the cutset. -/
theorem Trim_core (cutset a core b : GoString) (ha : ∀ x ∈ a, x ∈ cutset)
    (hb : ∀ x ∈ b, x ∈ cutset) (hne : core ≠ []) (hcore : ∀ x ∈ core, x ∉ cutset) :
    Trim (a ++ core ++ b) cutset = core := by
  unfold Trim
  have h1 : (a ++ core ++ b).dropWhile (fun c => cutset.contains c) = core ++ b := by
    cases core with
    | nil => exact absurd rfl hne
    | cons c t =>
      rw [List.append_assoc, List.cons_append]
      exact dropWhile_stop _ c (t ++ b) (by simpa using hcore c (List.mem_cons_self _ _)) a
        (by simpa using ha)
  rw [h1]
  exact dropRightWhile_core _ b (by simpa using hb) core hne (by simpa using hcore)

/-! ## Words of the patterns -/

theorem Regex.Matches_classes (P : Char → Prop) :
    ∀ (r : Regex), (∀ c ∈ r.classes, ∀ x, c.test x = true → P x) →
      ∀ w, r.Matches w → ∀ x ∈ w, P x := by
  intro r
  induction r with
  | one c =>
    intro h w hw x hx
    obtain ⟨y, hy, rfl⟩ := hw
    rw [List.mem_singleton] at hx
    subst hx
    exact h c (by simp [Regex.classes]) _ hy
  | plus c =>
    intro h w hw x hx
    exact h c (by simp [Regex.classes]) _ (hw.2 x hx)
  | star c =>
    intro h w hw x hx
    exact h c (by simp [Regex.classes]) _ (hw x hx)
  | seq a b iha ihb =>
    intro h w hw x hx
    obtain ⟨u, v, rfl, hu, hv⟩ := hw
    rcases List.mem_append.mp hx with hx | hx
    · exact iha (fun c hc => h c (by simp [Regex.classes, hc])) u hu x hx
    · exact ihb (fun c hc => h c (by simp [Regex.classes, hc])) v hv x hx
  | opt a iha =>
    intro h w hw x hx
    rcases hw with rfl | hw
    · simp at hx
    · exact iha (fun c hc => h c (by simpa [Regex.classes] using hc)) w hw x hx

theorem digit_not_cut (x : Char) (h : CharClass.digit.test x = true) :
    x ≠ '/' ∧ x ≠ '"' ∧ x ≠ '-' ∧ x ≠ '.' ∧ x ≠ '<' ∧ x ≠ '\n' := by
  refine ⟨?_, ?_, ?_, ?_, ?_, ?_⟩ <;> (rintro rfl; revert h; decide)

theorem letters_not_cut (x : Char) (h : letters.test x = true) :
    x ≠ '/' ∧ x ≠ '"' ∧ x ≠ '-' ∧ x ≠ '.' ∧ x ≠ '<' ∧ x ≠ '\n' := by
  refine ⟨?_, ?_, ?_, ?_, ?_, ?_⟩ <;> (rintro rfl; revert h; decide)

theorem letters_not_digit (x : Char) (h : letters.test x = true) :
    CharClass.digit.test x = false := by
  simp only [letters, CharClass.test, List.any_cons, List.any_nil, Bool.or_false,
    Bool.or_eq_true, Bool.and_eq_true, decide_eq_true_eq] at h
  have e1 : 'a'.toNat = 97 := by decide
  have e2 : 'z'.toNat = 122 := by decide
  have e3 : 'A'.toNat = 65 := by decide
  rw [e1, e2, e3] at h
  simp only [CharClass.test, Bool.and_eq_false_iff, decide_eq_false_iff_not]
  omega

theorem lit_test (c x : Char) : (CharClass.lit c).test x = true ↔ x = c := by
  simp [CharClass.test]

/-- No rune of a version core `X.Y.Z[-pre]` is a slash or a quote. -/
theorem core_not_cut (w : GoString) (h : (Regex.seq reXYZ (.opt rePre)).Matches w) :
    ∀ x ∈ w, x ≠ '/' ∧ x ≠ '"' ∧ x ≠ '<' ∧ x ≠ '\n' := by
  refine Regex.Matches_classes (fun x => x ≠ '/' ∧ x ≠ '"' ∧ x ≠ '<' ∧ x ≠ '\n') _ ?_ w h
  intro c hc x hx
  simp only [Regex.classes, reXYZ, rePre, chr, List.mem_append, List.mem_singleton,
    List.cons_append, List.nil_append, List.mem_cons, List.not_mem_nil, or_false] at hc
  rcases hc with rfl | rfl | rfl | rfl | rfl | rfl | rfl | rfl
  all_goals first
    | (have hd := digit_not_cut x hx
       tauto)
    | (have hl := letters_not_cut x hx
       tauto)
    | (rw [lit_test] at hx; subst hx; decide)

theorem reXYZ_ne_nil (w : GoString) (h : reXYZ.Matches w) : w ≠ [] := by
  obtain ⟨u, v, rfl, ⟨hu, _⟩, _⟩ := h
  intro h0
  exact hu (List.append_eq_nil.mp h0).1

theorem core_ne_nil (w : GoString) (h : (Regex.seq reXYZ (.opt rePre)).Matches w) :
    w ≠ [] := by
  obtain ⟨u, v, rfl, hu, _⟩ := h
  intro h0
  exact reXYZ_ne_nil u hu (List.append_eq_nil.mp h0).1

theorem reXYZ_core (w : GoString) (h : reXYZ.Matches w) :
    (Regex.seq reXYZ (.opt rePre)).Matches w :=
  ⟨w, [], by simp, h, Or.inl rfl⟩

/-- A slash or nothing. -/
theorem optSlash (u : GoString) (h : (Regex.opt (chr '/')).Matches u) :
    u = [] ∨ u = ['/'] := by
  rcases h with rfl | ⟨x, hx, rfl⟩
  · exact Or.inl rfl
  · right; rw [lit_test] at hx; rw [hx]

/-- The words of the stable pattern: a version core `X.Y.Z` between optional
slashes, then a quote. -/
theorem semverStable_words (w : GoString) :
    semverStable.re.Matches w ↔
      ∃ s1 core s2, w = s1 ++ core ++ s2 ++ ['"'] ∧ (Regex.opt (chr '/')).Matches s1 ∧
        reXYZ.Matches core ∧ (Regex.opt (chr '/')).Matches s2 := by
  constructor
  · rintro ⟨s1, v, rfl, h1, core, v2, rfl, hc, s2, q, rfl, h2, x, hx, rfl⟩
    rw [lit_test] at hx
    subst hx
    exact ⟨s1, core, s2, by simp, h1, hc, h2⟩
  · rintro ⟨s1, core, s2, rfl, h1, hc, h2⟩
    exact ⟨s1, core ++ (s2 ++ ['"']), by simp, h1, core, s2 ++ ['"'], rfl, hc, s2, ['"'], rfl,
      h2, '"', by simp [CharClass.test], rfl⟩

/-- The words of the pre-release pattern: a version core `X.Y.Z[-pre]` between
optional slashes, then a quote. -/
theorem semverPre_words (w : GoString) :
    semverPre.re.Matches w ↔
      ∃ s1 core s2, w = s1 ++ core ++ s2 ++ ['"'] ∧ (Regex.opt (chr '/')).Matches s1 ∧
        (Regex.seq reXYZ (.opt rePre)).Matches core ∧ (Regex.opt (chr '/')).Matches s2 := by
  constructor
  · rintro ⟨s1, v, rfl, h1, xyz, v2, rfl, hc, pre, v3, rfl, hp, s2, q, rfl, h2, x, hx, rfl⟩
    rw [lit_test] at hx
    subst hx
    exact ⟨s1, xyz ++ pre, s2, by simp, h1, ⟨xyz, pre, rfl, hc, hp⟩, h2⟩
  · rintro ⟨s1, core, s2, rfl, h1, ⟨xyz, pre, rfl, hc, hp⟩, h2⟩
    exact ⟨s1, xyz ++ (pre ++ (s2 ++ ['"'])), by simp, h1, xyz, pre ++ (s2 ++ ['"']), rfl, hc,
      pre, s2 ++ ['"'], rfl, hp, s2, ['"'], rfl, h2, '"', by simp [CharClass.test], rfl⟩

/-- Every word of the stable pattern is a word of the pre-release pattern. -/
theorem semverStable_sub_semverPre (w : GoString) (h : semverStable.re.Matches w) :
    semverPre.re.Matches w := by
  obtain ⟨s1, core, s2, rfl, h1, hc, h2⟩ := (semverStable_words w).mp h
  exact (semverPre_words _).mpr ⟨s1, core, s2, rfl, h1, reXYZ_core core hc, h2⟩

/-- Trimming a word of the pre-release pattern gives its version core. -/
theorem Trim_word (s1 core s2 : GoString) (h1 : (Regex.opt (chr '/')).Matches s1)
    (hc : (Regex.seq reXYZ (.opt rePre)).Matches core)
    (h2 : (Regex.opt (chr '/')).Matches s2) :
    Trim (s1 ++ core ++ s2 ++ ['"']) "/\"".toList = core := by
  rw [List.append_assoc (s1 ++ core)]
  apply Trim_core
  · intro x hx
    rcases optSlash s1 h1 with rfl | rfl
    · simp at hx
    · simp at hx; subst hx; decide
  · intro x hx
    rcases optSlash s2 h2 with rfl | rfl
    · simp at hx; subst hx; decide
    · simp at hx; rcases hx with rfl | rfl <;> decide
  · exact core_ne_nil core hc
  · intro x hx hmem
    have := core_not_cut core hc x hx
    have hm : x = '/' ∨ x = '"' := by simpa using hmem
    tauto

/-! ## The validators -/

theorem Regexp.search_bol_false (p : Regexp) (hb : p.bol = true) :
    ∀ s : GoString, p.search false s = none := by
  intro s
  induction s with
  | nil => simp [Regexp.search, hb]
  | cons c t ih => simp [Regexp.search, hb, ih]

theorem Regexp.MatchString_bol (p : Regexp) (hb : p.bol = true) (s : GoString) :
    p.MatchString s = (p.matchHere s).isSome := by
  unfold Regexp.MatchString
  cases s with
  | nil =>
    simp only [Regexp.search, hb]
    cases p.matchHere [] <;> simp
  | cons c t =>
    simp only [Regexp.search, hb, p.search_bol_false hb]
    cases p.matchHere (c :: t) <;> simp

/-- The function `validVersionFormat` accepts exactly the words of
`\d+\.\d+\.\d+(-[a-zA-z]+\d*)?`. -/
theorem validVersionFormat_iff (v : GoString) :
    validVersionFormat v = true ↔ (Regex.seq reXYZ (.opt rePre)).Matches v := by
  unfold validVersionFormat
  rw [Regexp.MatchString_bol _ rfl]
  constructor
  · intro h
    cases hm : semverRegexFull.matchHere v with
    | none => rw [hm] at h; simp at h
    | some rest =>
      obtain ⟨w, hw, hmat, hr⟩ := semverRegexFull.matchHere_sound v rest hm
      have := hr rfl
      subst this
      rw [List.append_nil] at hw
      subst hw
      exact hmat
  · intro h
    have := semverRegexFull.matchHere_complete v [] h (fun _ => rfl)
    simpa using this

/-- The function `validMinorVersionFormat` accepts exactly the words of
`\d+\.\d+`. -/
theorem validMinorVersionFormat_iff (v : GoString) :
    validMinorVersionFormat v = true ↔
      (Regex.seq (.plus .digit) (.seq (chr '.') (.plus .digit))).Matches v := by
  unfold validMinorVersionFormat
  rw [Regexp.MatchString_bol _ rfl]
  constructor
  · intro h
    cases hm : semverRegexMinor.matchHere v with
    | none => rw [hm] at h; simp at h
    | some rest =>
      obtain ⟨w, hw, hmat, hr⟩ := semverRegexMinor.matchHere_sound v rest hm
      have := hr rfl
      subst this
      rw [List.append_nil] at hw
      subst hw
      exact hmat
  · intro h
    have := semverRegexMinor.matchHere_complete v [] h (fun _ => rfl)
    simpa using this

/-! ## Matching the listing patterns at a position -/

/-- Two texts that agree and both stop at their first occurrence of `q` have
the same part before `q` and the same part after it. -/
theorem split_at_first (q : Char) :
    ∀ (u u' rest rest' : GoString), (∀ x ∈ u, x ≠ q) → (∀ x ∈ u', x ≠ q) →
      u ++ q :: rest = u' ++ q :: rest' → u = u' ∧ rest = rest' := by
  intro u
  induction u with
  | nil =>
    intro u' rest rest' _ hu' h
    cases u' with
    | nil => simpa using h
    | cons y t =>
      simp only [List.nil_append, List.cons_append, List.cons.injEq] at h
      exact absurd h.1.symm (hu' y (List.mem_cons_self _ _))
  | cons x t ih =>
    intro u' rest rest' hu hu' h
    cases u' with
    | nil =>
      simp only [List.nil_append, List.cons_append, List.cons.injEq] at h
      exact absurd h.1 (hu x (List.mem_cons_self _ _))
    | cons y t' =>
      simp only [List.cons_append, List.cons.injEq] at h
      obtain ⟨e1, e2⟩ := ih t' rest rest' (fun z hz => hu z (List.mem_cons_of_mem _ hz))
        (fun z hz => hu' z (List.mem_cons_of_mem _ hz)) h.2
      exact ⟨by rw [h.1, e1], e2⟩

/-- A text that reaches the rune `c` before any `q` does not begin with a word
`u ++ [q]` whose `u` avoids `c`. -/
theorem barrier (q c : Char) (hqc : c ≠ q) :
    ∀ (u v rest t : GoString), (∀ x ∈ u, x ≠ c) → (∀ x ∈ v, x ≠ q) →
      u ++ q :: rest = v ++ c :: t → False := by
  intro u
  induction u with
  | nil =>
    intro v rest t _ hv h
    cases v with
    | nil =>
      simp only [List.nil_append, List.cons.injEq] at h
      exact hqc h.1.symm
    | cons y v' =>
      simp only [List.nil_append, List.cons_append, List.cons.injEq] at h
      exact hv y (List.mem_cons_self _ _) h.1.symm
  | cons x u ih =>
    intro v rest t hu hv h
    cases v with
    | nil =>
      simp only [List.nil_append, List.cons_append, List.cons.injEq] at h
      exact hu x (List.mem_cons_self _ _) h.1
    | cons y v' =>
      simp only [List.cons_append, List.cons.injEq] at h
      exact ih v' rest t (fun z hz => hu z (List.mem_cons_of_mem _ hz))
        (fun z hz => hv z (List.mem_cons_of_mem _ hz)) h.2

/-- A word of the pre-release pattern ends in its only quote, and has no `<`
and no newline. -/
theorem semverPre_quote (w : GoString) (h : semverPre.re.Matches w) :
    ∃ u, w = u ++ ['"'] ∧ u ≠ [] ∧ ∀ x ∈ u, x ≠ '"' ∧ x ≠ '<' ∧ x ≠ '\n' := by
  obtain ⟨s1, core, s2, rfl, h1, hc, h2⟩ := (semverPre_words w).mp h
  refine ⟨s1 ++ core ++ s2, rfl, ?_, ?_⟩
  · intro h0
    have := core_ne_nil core hc
    simp at h0
    exact this h0.2.1
  · intro x hx
    simp only [List.mem_append] at hx
    rcases hx with (hx | hx) | hx
    · rcases optSlash s1 h1 with rfl | rfl
      · simp at hx
      · simp at hx; subst hx; decide
    · have := core_not_cut core hc x hx
      tauto
    · rcases optSlash s2 h2 with rfl | rfl
      · simp at hx
      · simp at hx; subst hx; decide

theorem semverPre_ne_nil (w : GoString) (h : semverPre.re.Matches w) : w ≠ [] := by
  obtain ⟨u, rfl, _, _⟩ := semverPre_quote w h
  simp

theorem semverStable_ne_nil (w : GoString) (h : semverStable.re.Matches w) : w ≠ [] :=
  semverPre_ne_nil w (semverStable_sub_semverPre w h)

/-- At a position where a word of the pattern begins, the pre-release pattern
matches exactly that word. -/
theorem semverPre_matchHere (w t : GoString) (h : semverPre.re.Matches w) :
    semverPre.matchHere (w ++ t) = some t := by
  have hc := semverPre.matchHere_complete w t h (by simp [semverPre])
  cases hm : semverPre.matchHere (w ++ t) with
  | none => rw [hm] at hc; simp at hc
  | some rest =>
    obtain ⟨w', hw', hmat, _⟩ := semverPre.matchHere_sound _ rest hm
    obtain ⟨u, rfl, _, hu⟩ := semverPre_quote w h
    obtain ⟨u', rfl, _, hu'⟩ := semverPre_quote w' hmat
    simp only [List.append_assoc, List.singleton_append] at hw'
    obtain ⟨_, e⟩ := split_at_first '"' u u' t rest (fun x hx => (hu x hx).1)
      (fun x hx => (hu' x hx).1) hw'
    rw [e]

/-- At a position where a word of the pattern begins, the stable pattern
matches exactly that word. -/
theorem semverStable_matchHere (w t : GoString) (h : semverStable.re.Matches w) :
    semverStable.matchHere (w ++ t) = some t := by
  have hc := semverStable.matchHere_complete w t h (by simp [semverStable])
  cases hm : semverStable.matchHere (w ++ t) with
  | none => rw [hm] at hc; simp at hc
  | some rest =>
    obtain ⟨w', hw', hmat, _⟩ := semverStable.matchHere_sound _ rest hm
    obtain ⟨u, rfl, _, hu⟩ := semverPre_quote w (semverStable_sub_semverPre w h)
    obtain ⟨u', rfl, _, hu'⟩ := semverPre_quote w' (semverStable_sub_semverPre w' hmat)
    simp only [List.append_assoc, List.singleton_append] at hw'
    obtain ⟨_, e⟩ := split_at_first '"' u u' t rest (fun x hx => (hu x hx).1)
      (fun x hx => (hu' x hx).1) hw'
    rw [e]

/-- No match of the stable pattern begins with a rune that is neither a slash
nor a digit. -/
theorem semverStable_head (c : Char) (t : GoString) (h1 : c ≠ '/')
    (h2 : CharClass.digit.test c = false) : semverStable.matchHere (c :: t) = none := by
  simp [Regexp.matchHere, semverStable, Regex.run, chr, reXYZ, lit_test, h1, h2]

/-- No match of the pre-release pattern begins with a rune that is neither a
slash nor a digit. -/
theorem semverPre_head (c : Char) (t : GoString) (h1 : c ≠ '/')
    (h2 : CharClass.digit.test c = false) : semverPre.matchHere (c :: t) = none := by
  simp [Regexp.matchHere, semverPre, Regex.run, chr, reXYZ, lit_test, h1, h2]

/-- No match of the stable pattern begins with a slash that no digit
follows. -/
theorem semverStable_slash (c : Char) (t : GoString)
    (h2 : CharClass.digit.test c = false) : semverStable.matchHere ('/' :: c :: t) = none := by
  have hs : CharClass.digit.test '/' = false := by decide
  simp [Regexp.matchHere, semverStable, Regex.run, chr, reXYZ, lit_test, h2, hs]

/-- No match of the stable pattern begins in a text that reaches, before any
quote, a rune that is not a digit, a dot or a slash. -/
theorem semverStable_barrier (v t : GoString) (c : Char) (hv : ∀ x ∈ v, x ≠ '"')
    (hc : c ≠ '"') (hc1 : c ≠ '/') (hc2 : c ≠ '.') (hc3 : CharClass.digit.test c = false) :
    semverStable.matchHere (v ++ c :: t) = none := by
  cases hm : semverStable.matchHere (v ++ c :: t) with
  | none => rfl
  | some rest =>
    exfalso
    obtain ⟨w, hw, hmat, _⟩ := semverStable.matchHere_sound _ rest hm
    obtain ⟨s1, core, s2, rfl, h1, hcore, h2⟩ := (semverStable_words w).mp hmat
    have hA : ∀ x ∈ s1 ++ core ++ s2, x ≠ c := by
      intro x hx
      simp only [List.mem_append] at hx
      rcases hx with (hx | hx) | hx
      · rcases optSlash s1 h1 with rfl | rfl
        · simp at hx
        · simp at hx; subst hx; exact fun e => hc1 e.symm
      · have := Regex.Matches_classes
          (fun x => x = '.' ∨ CharClass.digit.test x = true) reXYZ (by
            intro k hk y hy
            simp only [Regex.classes, reXYZ, chr, List.mem_append, List.mem_singleton,
              List.cons_append, List.nil_append, List.mem_cons, List.not_mem_nil,
              or_false] at hk
            rcases hk with rfl | rfl | rfl | rfl | rfl
            all_goals first
              | exact Or.inr hy
              | (rw [lit_test] at hy; exact Or.inl hy)) core hcore x hx
        rcases this with rfl | hd
        · exact fun e => hc2 e.symm
        · intro e; subst e; rw [hd] at hc3; cases hc3
      · rcases optSlash s2 h2 with rfl | rfl
        · simp at hx
        · simp at hx; subst hx; exact fun e => hc1 e.symm
    have hw' : (s1 ++ core ++ s2) ++ '"' :: rest = v ++ c :: t := by
      rw [hw]; simp
    exact barrier '"' c hc _ _ _ _ hA hv hw'

/-- Skipping a stretch of text in which no match begins. -/
theorem Regexp.search_skip_many (p : Regexp) (hb : p.bol = false) (t : GoString) :
    ∀ (v : GoString) (a : Bool),
      (∀ v', v' ≠ [] → v' <:+ v → p.matchHere (v' ++ t) = none) →
      p.search a (v ++ t) = p.search false t := by
  intro v
  induction v with
  | nil => intro a _; exact p.search_flag hb a t
  | cons c v ih =>
    intro a h
    rw [List.cons_append, p.search_skip hb a c (v ++ t)
      (h (c :: v) (by simp) (List.suffix_refl _))]
    exact ih false (fun v' hne hs => h v' hne (hs.trans (List.suffix_cons c v)))

/-- What is found after skipped text does not depend on how it was reached. -/
theorem Regexp.allMatches_of_search (p : Regexp) (hne : ∀ w, p.re.Matches w → w ≠ [])
    (a a' b b' : Bool) (s s' : GoString) (h : p.search a s = p.search a' s') :
    p.allMatches (s.length + 2) a b s = p.allMatches (s'.length + 2) a' b' s' := by
  rw [p.allMatches_unfold hne, p.allMatches_unfold hne, h]

/-! ## Extraction from a body -/

/-- Every trimmed match of either listing pattern is a full version string. -/
theorem trimmed_match_valid (preRelease : Bool) (fuel : Nat) (a b : Bool) (s m : GoString)
    (h : m ∈ (if preRelease then semverPre else semverStable).allMatches fuel a b s) :
    validVersionFormat (Trim m "/\"".toList) = true := by
  have hm : semverPre.re.Matches m := by
    cases preRelease with
    | true => exact semverPre.allMatches_mem fuel a b s m h
    | false =>
      exact semverStable_sub_semverPre m (semverStable.allMatches_mem fuel a b s m h)
  obtain ⟨s1, core, s2, rfl, h1, hc, h2⟩ := (semverPre_words m).mp hm
  rw [Trim_word s1 core s2 h1 hc h2]
  exact (validVersionFormat_iff core).mpr hc

/-- In both modes `getVersionsFromBody` leaves the list it is given in place
and appends only strings that satisfy `validVersionFormat`, the validator of
the source with its class `[a-zA-z]`; the appended strings, from the empty
list, are what `getTFList` returns for the fetched body. -/
theorem getVersionsFromBody_valid (body : GoString) (preRelease : Bool)
    (tflist : List GoString) :
    ∃ added, getVersionsFromBody body preRelease tflist = tflist ++ added ∧
      (∀ v ∈ added, validVersionFormat v = true) ∧
      (∀ (http : HttpGet) (mirrorURL : GoString),
        getTFURLBody http mirrorURL = .ret (body, none) →
        getTFList http mirrorURL preRelease = .ret (added, none)) := by
  refine ⟨((if preRelease then semverPre else semverStable).FindAllString body).map
    (fun m => Trim m "/\"".toList), rfl, ?_, ?_⟩
  · intro v hv
    obtain ⟨m, hm, rfl⟩ := List.mem_map.mp hv
    exact trimmed_match_valid preRelease _ _ _ body m hm
  · intro http mirrorURL h
    unfold getTFList
    rw [h]
    simp [getVersionsFromBody]

theorem getVersionsFromBody_valid_witness :
    "1.2.3-beta1".toList ∈
        getVersionsFromBody "<a href=\"/1.2.3-beta1/\">".toList true ["0.1".toList] ∧
      validVersionFormat "1.2.3-beta1".toList = true ∧
      getTFList (serving "<a href=\"/1.2.3-beta1/\">".toList) "mirror".toList true =
        .ret (["1.2.3-beta1".toList], none) := by
  obtain ⟨added, hadd, hvalid, hlist⟩ :=
    getVersionsFromBody_valid "<a href=\"/1.2.3-beta1/\">".toList true ["0.1".toList]
  have hconc : getVersionsFromBody "<a href=\"/1.2.3-beta1/\">".toList true ["0.1".toList] =
      ["0.1".toList] ++ ["1.2.3-beta1".toList] := by decide
  have hadded : added = ["1.2.3-beta1".toList] :=
    (List.append_cancel_left (hadd.symm.trans hconc))
  subst hadded
  refine ⟨by rw [hconc]; simp, hvalid _ (by simp), ?_⟩
  exact hlist (serving "<a href=\"/1.2.3-beta1/\">".toList) "mirror".toList (by decide)

/-- C7, at a failing input. With pre-releases the pattern of
`getVersionsFromBody` has the class `[a-zA-z]`, which holds the underscore: from
the link of `1.2.3-_` it appends `1.2.3-_`, and `getTFList` returns it. The
string satisfies `validVersionFormat`, whose pattern has the same class, and
not the full-version pattern `^\d+\.\d+\.\d+(-[A-Za-z]+\d*)?$`. -/
theorem getVersionsFromBody_lists_underscore :
    getVersionsFromBody "<a href=\"/1.2.3-_/\">".toList true [] = ["1.2.3-_".toList] ∧
      getTFList (serving "<a href=\"/1.2.3-_/\">".toList)
        "https://releases.hashicorp.com/terraform".toList true =
        .ret (["1.2.3-_".toList], none) ∧
      validVersionFormat "1.2.3-_".toList = true ∧
      fullVersionSpec.MatchString "1.2.3-_".toList = false := by
  decide

theorem digit_test_iff (x : Char) : CharClass.digit.test x = true ↔ IsAsciiDigit x := by
  have e0 : '0'.toNat = 48 := by decide
  have e9 : '9'.toNat = 57 := by decide
  simp [CharClass.test, IsAsciiDigit, e0, e9]

theorem plus_digit_iff (a : GoString) : (Regex.plus .digit).Matches a ↔ IsDigits a := by
  simp only [Regex.Matches, IsDigits, digit_test_iff]

theorem reXYZ_iff (v : GoString) : reXYZ.Matches v ↔ IsStableVersion v := by
  constructor
  · rintro ⟨a, r1, rfl, ha, d1, r2, rfl, ⟨x, hx, rfl⟩, b, r3, rfl, hb, d2, c, rfl,
      ⟨y, hy, rfl⟩, hc⟩
    rw [lit_test] at hx hy
    subst hx; subst hy
    exact ⟨a, b, c, (plus_digit_iff a).mp ha, (plus_digit_iff b).mp hb,
      (plus_digit_iff c).mp hc, by simp⟩
  · rintro ⟨a, b, c, ha, hb, hc, rfl⟩
    exact ⟨a, '.' :: (b ++ '.' :: c), rfl, (plus_digit_iff a).mpr ha, ['.'], b ++ '.' :: c, rfl,
      ⟨'.', by simp [CharClass.test], rfl⟩, b, '.' :: c, rfl, (plus_digit_iff b).mpr hb,
      ['.'], c, rfl, ⟨'.', by simp [CharClass.test], rfl⟩, (plus_digit_iff c).mpr hc⟩

/-- The runes of `X.Y.Z` are digits and dots. -/
theorem reXYZ_runes (v : GoString) (h : reXYZ.Matches v) :
    ∀ x ∈ v, x = '.' ∨ CharClass.digit.test x = true := by
  refine Regex.Matches_classes (fun x => x = '.' ∨ CharClass.digit.test x = true) reXYZ ?_ v h
  intro k hk y hy
  simp only [Regex.classes, reXYZ, chr, List.mem_append, List.mem_singleton,
    List.cons_append, List.nil_append, List.mem_cons, List.not_mem_nil, or_false] at hk
  rcases hk with rfl | rfl | rfl | rfl | rfl
  all_goals first
    | exact Or.inr hy
    | (rw [lit_test] at hy; exact Or.inl hy)

/-- The link `/v/"` is a word of the stable pattern. -/
theorem link_stable (v : GoString) (h : reXYZ.Matches v) :
    semverStable.re.Matches ('/' :: v ++ ['/', '"']) :=
  (semverStable_words _).mpr ⟨['/'], v, ['/'], by simp, Or.inr ⟨'/', by simp [CharClass.test], rfl⟩,
    h, Or.inr ⟨'/', by simp [CharClass.test], rfl⟩⟩

/-- The link `/v/"` is a word of the pre-release pattern. -/
theorem link_pre (v : GoString) (h : (Regex.seq reXYZ (.opt rePre)).Matches v) :
    semverPre.re.Matches ('/' :: v ++ ['/', '"']) :=
  (semverPre_words _).mpr ⟨['/'], v, ['/'], by simp, Or.inr ⟨'/', by simp [CharClass.test], rfl⟩,
    h, Or.inr ⟨'/', by simp [CharClass.test], rfl⟩⟩

theorem linkText_eq (v t : GoString) :
    linkText v ++ t =
      '<' :: 'a' :: ' ' :: 'h' :: 'r' :: 'e' :: 'f' :: '=' :: '"' ::
        (('/' :: v ++ ['/', '"']) ++ '>' :: t) := by
  have e1 : "<a href=\"/".toList = ['<', 'a', ' ', 'h', 'r', 'e', 'f', '=', '"', '/'] := rfl
  have e2 : "/\">".toList = ['/', '"', '>'] := rfl
  simp [linkText, e1, e2]

/-- Searching a text that begins with the link of a stable version finds the
link. -/
theorem search_link_stable (v t : GoString) (h : reXYZ.Matches v) (a : Bool) :
    semverStable.search a (linkText v ++ t) = some ('/' :: v ++ ['/', '"'], '>' :: t) := by
  rw [linkText_eq]
  iterate 9 rw [semverStable.search_skip rfl _ _ _
    (semverStable_head _ _ (by decide) (by decide))]
  exact semverStable.search_hit rfl false _ _ (semverStable_matchHere _ _ (link_stable v h))

/-- Searching a text that begins with the link of a version finds the link, in
pre-release mode. -/
theorem search_link_pre (v t : GoString) (h : (Regex.seq reXYZ (.opt rePre)).Matches v)
    (a : Bool) :
    semverPre.search a (linkText v ++ t) = some ('/' :: v ++ ['/', '"'], '>' :: t) := by
  rw [linkText_eq]
  iterate 9 rw [semverPre.search_skip rfl _ _ _
    (semverPre_head _ _ (by decide) (by decide))]
  exact semverPre.search_hit rfl false _ _ (semverPre_matchHere _ _ (link_pre v h))

/-- No match of the stable pattern begins in the rest `>v</a>` of a line. -/
theorem search_line_rest (v t : GoString) (h : reXYZ.Matches v) (a : Bool) :
    semverStable.search a ('>' :: (v ++ "</a>".toList ++ t)) = semverStable.search false t := by
  have e : "</a>".toList = ['<', '/', 'a', '>'] := rfl
  rw [e, semverStable.search_skip rfl _ _ _ (semverStable_head _ _ (by decide) (by decide))]
  rw [List.append_assoc, semverStable.search_skip_many rfl _ v false]
  · simp only [List.cons_append, List.nil_append]
    rw [semverStable.search_skip rfl _ _ _ (semverStable_head _ _ (by decide) (by decide))]
    rw [semverStable.search_skip rfl _ _ _ (semverStable_slash _ _ (by decide))]
    rw [semverStable.search_skip rfl _ _ _ (semverStable_head _ _ (by decide) (by decide))]
    rw [semverStable.search_skip rfl _ _ _ (semverStable_head _ _ (by decide) (by decide))]
  · intro v' _ hs
    simp only [List.cons_append, List.nil_append]
    apply semverStable_barrier v' _ '<' _ (by decide) (by decide) (by decide) (by decide)
    intro x hx
    rcases reXYZ_runes v h x (hs.subset hx) with rfl | hd
    · decide
    · exact (digit_not_cut x hd).2.1

theorem joinLines_cons (l : GoString) (ls : List GoString) :
    joinLines (l :: ls) = l ++ (match ls with
      | [] => []
      | _ :: _ => '\n' :: joinLines ls) := by
  cases ls with
  | nil => simp [joinLines]
  | cons l' ls => simp [joinLines]

/-- All matches of the stable pattern in a listing of stable versions: the
links, in order. -/
theorem allMatches_listing :
    ∀ (vs : List GoString), (∀ v ∈ vs, reXYZ.Matches v) → ∀ (a b : Bool),
      semverStable.allMatches ((joinLines (vs.map listingLine)).length + 2) a b
          (joinLines (vs.map listingLine)) =
        vs.map (fun v => '/' :: v ++ ['/', '"']) := by
  intro vs
  induction vs with
  | nil =>
    intro _ a b
    rw [semverStable.allMatches_unfold semverStable_ne_nil]
    rfl
  | cons v vs ih =>
    intro h a b
    have hv := h v (List.mem_cons_self _ _)
    have ih2 := ih (fun x hx => h x (List.mem_cons_of_mem _ hx))
    rw [semverStable.allMatches_unfold semverStable_ne_nil, List.map_cons, joinLines_cons]
    rw [show listingLine v = linkText v ++ (v ++ "</a>".toList) from by simp [listingLine],
      List.append_assoc, search_link_stable v _ hv]
    simp only [List.map_cons, List.cons.injEq, true_and]
    rw [← ih2 false true]
    apply semverStable.allMatches_of_search semverStable_ne_nil
    rw [search_line_rest v _ hv]
    cases vs with
    | nil => rfl
    | cons v' vs' =>
      simp only [List.map_cons]
      rw [semverStable.search_skip rfl _ _ _ (semverStable_head _ _ (by decide) (by decide))]

/-- C6. Stable-mode extraction over the directory listing made of the lines
`<a href="/v/">v</a>` of stable versions `v1 .. vN`, joined by newlines and
starting from an empty list, returns exactly `v1 .. vN` in document order. -/
theorem getVersionsFromBody_listing (vs : List GoString) (h : ∀ v ∈ vs, IsStableVersion v) :
    getVersionsFromBody (joinLines (vs.map listingLine)) false [] = vs := by
  have h' : ∀ v ∈ vs, reXYZ.Matches v := fun v hv => (reXYZ_iff v).mpr (h v hv)
  unfold getVersionsFromBody Regexp.FindAllString
  simp only [Bool.false_eq_true, if_false, List.nil_append]
  rw [allMatches_listing vs h', List.map_map]
  conv_rhs => rw [← List.map_id vs]
  apply List.map_congr_left
  intro v hv
  have := Trim_word ['/'] v ['/'] (Or.inr ⟨'/', by simp [CharClass.test], rfl⟩)
    (reXYZ_core v (h' v hv)) (Or.inr ⟨'/', by simp [CharClass.test], rfl⟩)
  simpa using this

theorem getVersionsFromBody_listing_witness :
    getVersionsFromBody
        (joinLines (["1.5.0".toList, "1.6.0".toList, "0.12.31".toList].map listingLine))
        false [] =
      ["1.5.0".toList, "1.6.0".toList, "0.12.31".toList] :=
  getVersionsFromBody_listing ["1.5.0".toList, "1.6.0".toList, "0.12.31".toList] (by
    intro v hv
    simp only [List.mem_cons, List.mem_singleton, List.not_mem_nil, or_false] at hv
    rcases hv with rfl | rfl | rfl
    · exact ⟨['1'], ['5'], ['0'], by unfold IsDigits IsAsciiDigit; decide, by unfold IsDigits IsAsciiDigit; decide,
        by unfold IsDigits IsAsciiDigit; decide, rfl⟩
    · exact ⟨['1'], ['6'], ['0'], by unfold IsDigits IsAsciiDigit; decide, by unfold IsDigits IsAsciiDigit; decide,
        by unfold IsDigits IsAsciiDigit; decide, rfl⟩
    · exact ⟨['0'], ['1', '2'], ['3', '1'], by unfold IsDigits IsAsciiDigit; decide, by unfold IsDigits IsAsciiDigit; decide,
        by unfold IsDigits IsAsciiDigit; decide, rfl⟩)

theorem suffix_append_cons (c : Char) (Y : GoString) :
    ∀ (X s : GoString), s <:+ X ++ c :: Y → s <:+ Y ∨ ∃ X', X' <:+ X ∧ s = X' ++ c :: Y := by
  intro X
  induction X with
  | nil =>
    intro s h
    rcases List.suffix_cons_iff.mp h with rfl | h
    · exact Or.inr ⟨[], List.suffix_refl _, rfl⟩
    · exact Or.inl h
  | cons x X ih =>
    intro s h
    rcases List.suffix_cons_iff.mp h with rfl | h
    · exact Or.inr ⟨x :: X, List.suffix_refl _, rfl⟩
    · rcases ih s h with h | ⟨X', hX', rfl⟩
      · exact Or.inl h
      · exact Or.inr ⟨X', hX'.trans (List.suffix_cons x X), rfl⟩

theorem reXYZ_has_dot (w : GoString) (h : reXYZ.Matches w) : '.' ∈ w := by
  obtain ⟨a, b, c, _, _, _, rfl⟩ := (reXYZ_iff w).mp h
  simp

/-- A full version string with a dash is `X.Y.Z`, a dash, letters, digits. -/
theorem core_with_dash (v : GoString) (hv : (Regex.seq reXYZ (.opt rePre)).Matches v)
    (hd : '-' ∈ v) :
    ∃ xyz l d, v = xyz ++ '-' :: (l ++ d) ∧ reXYZ.Matches xyz ∧
      (∀ x ∈ l, letters.test x = true) ∧ (∀ x ∈ d, CharClass.digit.test x = true) := by
  obtain ⟨xyz, pre, rfl, hx, hp⟩ := hv
  have hnx : '-' ∉ xyz := by
    intro hm
    rcases reXYZ_runes xyz hx _ hm with h | h
    · revert h; decide
    · revert h; decide
  rcases hp with rfl | hp
  · simp at hd; exact absurd hd hnx
  · obtain ⟨dash, r, rfl, ⟨y, hy, rfl⟩, l, d, rfl, hl, hdg⟩ := hp
    rw [lit_test] at hy
    subst hy
    exact ⟨xyz, l, d, by simp, hx, hl.2, hdg⟩

/-- The stable pattern finds nothing in the link of a pre-release version. -/
theorem search_link_stable_none (v : GoString)
    (hv : (Regex.seq reXYZ (.opt rePre)).Matches v) (hd : '-' ∈ v) (a : Bool) :
    semverStable.search a (linkText v) = none := by
  obtain ⟨xyz, l, d, rfl, hx, hl, hdg⟩ := core_with_dash v hv hd
  have e := linkText_eq (xyz ++ '-' :: (l ++ d)) []
  rw [List.append_nil] at e
  rw [e]
  iterate 9 rw [semverStable.search_skip rfl _ _ _
    (semverStable_head _ _ (by decide) (by decide))]
  apply semverStable.search_none
  intro s hs
  have hs' : s <:+ ('/' :: xyz) ++ '-' :: (l ++ d ++ ['/', '"', '>']) := by
    simpa using hs
  rcases suffix_append_cons '-' _ _ s hs' with h | ⟨X', hX', rfl⟩
  · cases hm : semverStable.matchHere s with
    | none => rfl
    | some rest =>
      exfalso
      obtain ⟨w, hw, hmat, _⟩ := semverStable.matchHere_sound s rest hm
      obtain ⟨s1, core, s2, rfl, _, hcore, _⟩ := (semverStable_words w).mp hmat
      have hdot : '.' ∈ s := by
        rw [hw]
        have := reXYZ_has_dot core hcore
        simp [this]
      have hdot2 := h.subset hdot
      simp only [List.mem_append, List.mem_cons, List.mem_singleton, List.not_mem_nil,
        or_false] at hdot2
      rcases hdot2 with (h1 | h1) | h1
      · exact (letters_not_cut _ (hl _ h1)).2.2.2.1 rfl
      · exact (digit_not_cut _ (hdg _ h1)).2.2.2.1 rfl
      · revert h1; decide
  · apply semverStable_barrier X' _ '-' _ (by decide) (by decide) (by decide) (by decide)
    intro x hx'
    have hx2 := hX'.subset hx'
    rcases List.mem_cons.mp hx2 with rfl | hx2
    · decide
    · rcases reXYZ_runes xyz hx x hx2 with rfl | h
      · decide
      · exact (digit_not_cut x h).2.1

/-- C8. For a version string `v` that satisfies `validVersionFormat` and has a
pre-release suffix (it contains `-`), extraction over the link `<a href="/v/">`
yields the empty list in stable mode and exactly `[v]` with pre-releases. -/
theorem getVersionsFromBody_prerelease_link (v : GoString)
    (hv : validVersionFormat v = true) (hd : '-' ∈ v) :
    getVersionsFromBody (linkText v) false [] = [] ∧
      getVersionsFromBody (linkText v) true [] = [v] := by
  have hcore := (validVersionFormat_iff v).mp hv
  constructor
  · unfold getVersionsFromBody Regexp.FindAllString
    simp only [Bool.false_eq_true, if_false, List.nil_append]
    rw [semverStable.allMatches_unfold semverStable_ne_nil,
      search_link_stable_none v hcore hd]
    rfl
  · unfold getVersionsFromBody Regexp.FindAllString
    simp only [if_true, List.nil_append]
    rw [semverPre.allMatches_unfold semverPre_ne_nil]
    have hs := search_link_pre v [] hcore true
    rw [List.append_nil] at hs
    rw [hs]
    have hrest : semverPre.allMatches (['>'].length + 2) false true ['>'] = [] := by decide
    simp only [hrest, List.map_cons, List.map_nil, List.cons.injEq, and_true]
    have := Trim_word ['/'] v ['/'] (Or.inr ⟨'/', by simp [CharClass.test], rfl⟩)
      hcore (Or.inr ⟨'/', by simp [CharClass.test], rfl⟩)
    simpa using this

theorem getVersionsFromBody_prerelease_link_witness :
    getVersionsFromBody "<a href=\"/1.2.3-beta1/\">".toList false [] = [] ∧
      getVersionsFromBody "<a href=\"/1.2.3-beta1/\">".toList true [] =
        ["1.2.3-beta1".toList] :=
  getVersionsFromBody_prerelease_link "1.2.3-beta1".toList (by decide) (by decide)

/-! ## Duplicates -/

theorem Trim_marker (val : GoString) : Trim val " *recent".toList = comparisonKey val := by
  have e : (fun c : Char => " *recent".toList.contains c) =
      (fun c => decide (c ∈ markerRunes)) := by
    funext c
    have e1 : " *recent".toList = [' ', '*', 'r', 'e', 'c', 'e', 'n', 't'] := rfl
    rw [e1]
    simp only [markerRunes, List.contains_eq_any_beq, List.any_cons, List.any_nil,
      Bool.or_false, List.mem_cons, List.mem_singleton, List.not_mem_nil, or_false]
    by_cases h1 : c = ' ' <;> by_cases h2 : c = '*' <;> by_cases h3 : c = 'r' <;>
      by_cases h4 : c = 'e' <;> by_cases h5 : c = 'c' <;> by_cases h6 : c = 'n' <;>
      by_cases h7 : c = 't' <;> simp [h1, h2, h3, h4, h5, h6, h7]
  unfold Trim comparisonKey
  rw [e]

/-- The loop of `removeDuplicateVersions` keeps the first occurrences by key,
as long as the map holds the keys of the elements already passed. -/
theorem removeDuplicateVersionsLoop_eq :
    ∀ (elements encountered result earlier : List GoString),
      (∀ k, k ∈ encountered ↔ ∃ e ∈ earlier, comparisonKey e = k) →
      removeDuplicateVersionsLoop encountered result elements =
        result ++ keepFirstByKey earlier elements := by
  intro elements
  induction elements with
  | nil => intro enc res earlier _; simp [removeDuplicateVersionsLoop, keepFirstByKey]
  | cons val rest ih =>
    intro enc res earlier hinv
    unfold removeDuplicateVersionsLoop keepFirstByKey
    simp only [Trim_marker]
    by_cases hmem : comparisonKey val ∈ enc
    · have hall : ¬ (earlier.all (fun e => decide (comparisonKey e ≠ comparisonKey val)) = true) := by
        obtain ⟨e, he, hk⟩ := (hinv _).mp hmem
        simp only [List.all_eq_true, decide_eq_true_eq, not_forall]
        exact ⟨e, he, fun hne => hne hk⟩
      rw [if_pos (by simpa using hmem), if_neg hall]
      apply ih
      intro k
      rw [hinv k]
      constructor
      · rintro ⟨e, he, hk⟩
        exact ⟨e, List.mem_append_left _ he, hk⟩
      · rintro ⟨e, he, hk⟩
        rcases List.mem_append.mp he with he | he
        · exact ⟨e, he, hk⟩
        · rw [List.mem_singleton] at he
          subst he
          rw [← hk]
          exact (hinv _).mp hmem
    · have hall : earlier.all (fun e => decide (comparisonKey e ≠ comparisonKey val)) = true := by
        simp only [List.all_eq_true, decide_eq_true_eq]
        intro e he hk
        exact hmem ((hinv _).mpr ⟨e, he, hk⟩)
      rw [if_neg (by simpa using hmem), if_pos hall]
      rw [ih (comparisonKey val :: enc) (res ++ [val]) (earlier ++ [val])]
      · simp
      · intro k
        rw [List.mem_cons, hinv k]
        constructor
        · rintro (rfl | ⟨e, he, hk⟩)
          · exact ⟨val, by simp, rfl⟩
          · exact ⟨e, List.mem_append_left _ he, hk⟩
        · rintro ⟨e, he, hk⟩
          rcases List.mem_append.mp he with he | he
          · exact Or.inr ⟨e, he, hk⟩
          · rw [List.mem_singleton] at he
            subst he
            exact Or.inl hk.symm

theorem keepFirstByKey_sublist :
    ∀ (elements earlier : List GoString), (keepFirstByKey earlier elements).Sublist elements := by
  intro elements
  induction elements with
  | nil => intro _; simp [keepFirstByKey]
  | cons val rest ih =>
    intro earlier
    unfold keepFirstByKey
    split
    · exact (ih _).cons₂ val
    · exact (ih _).cons val

/-- C9. The function `removeDuplicateVersions` returns exactly the input
elements, in input order and in their original form, whose comparison key
differs from the key of every earlier input element, where the key is the
element without its leading and trailing runes from the set of the runes of
`" *recent"`; the output is a subsequence of the input. -/
theorem removeDuplicateVersions_first_occurrences (elements : List GoString) :
    removeDuplicateVersions elements = keepFirstByKey [] elements ∧
      (removeDuplicateVersions elements).Sublist elements := by
  have h : removeDuplicateVersions elements = keepFirstByKey [] elements := by
    unfold removeDuplicateVersions
    rw [removeDuplicateVersionsLoop_eq elements [] [] [] (by simp)]
    simp
  exact ⟨h, h ▸ keepFirstByKey_sublist elements []⟩

/-- C10, at a failing input. Two distinct full version strings with the keys
`1.2.3-` and `1.2.3-`: the second is dropped as a duplicate of the first. -/
theorem removeDuplicateVersions_drops_distinct :
    validVersionFormat "1.2.3-rc".toList = true ∧
      validVersionFormat "1.2.3-r".toList = true ∧
      "1.2.3-rc".toList ≠ "1.2.3-r".toList ∧
      removeDuplicateVersions ["1.2.3-rc".toList, "1.2.3-r".toList] = ["1.2.3-rc".toList] := by
  decide

/-! ## The latest version -/

/-- C1, at a failing input. The body has three lines: `é`, the link of 1.5.0
and the link of 1.6.0. The rune `é` takes two bytes, so the loop of
`getTFLatest` looks at line 0 and then at line 2, and returns 1.6.0; the first
line with a match, found by the scan over the lines, holds 1.5.0. -/
theorem getTFLatest_skips_first_match :
    getTFLatest (serving "é\n<a href=\"/1.5.0/\">\n<a href=\"/1.6.0/\">".toList)
        "https://releases.hashicorp.com/terraform".toList =
        .ret ("1.6.0".toList, none) ∧
      firstLineMatch semverStable
          (splitLines "é\n<a href=\"/1.5.0/\">\n<a href=\"/1.6.0/\">".toList) =
        some "1.5.0".toList := by
  decide

/-- C2, at a failing input. The body `<html></html>` has no match and one
line; the loop of `getTFLatest` runs over its 13 bytes and `bodyLines[1]` is
out of range. -/
theorem getTFLatest_panics_without_match :
    (∀ line ∈ splitLines "<html></html>".toList, semverStable.MatchString line = false) ∧
      getTFLatest (serving "<html></html>".toList)
        "https://releases.hashicorp.com/terraform".toList = .panic := by
  decide

/-- C3, at a failing input. The dot of the minor version `1.1` is pasted into
the pattern unescaped and matches the `0` of `101`: the result does not begin
with `1.1.`. -/
theorem getTFLatestImplicit_other_minor :
    validMinorVersionFormat "1.1".toList = true ∧
      getTFLatestImplicit (fun _ _ => ([], none))
        (serving "<a href=\"/0.101.2-rc1/\">".toList)
        "https://releases.hashicorp.com/terraform".toList true "1.1".toList =
        some (.ret ("101.2-rc1".toList, none)) ∧
      ¬ ("1.1.".toList <+: "101.2-rc1".toList) := by
  decide

/-- C4, at a failing input. For the minor version `2.0` and the listed version
`0.210.3-alpha` the pre-release branch returns `210.3-alpha`, which does not
satisfy `validVersionFormat`. -/
theorem getTFLatestImplicit_malformed :
    validMinorVersionFormat "2.0".toList = true ∧
      getTFLatestImplicit (fun _ _ => ([], none))
        (serving "<a href=\"/0.210.3-alpha/\">".toList)
        "https://releases.hashicorp.com/terraform".toList true "2.0".toList =
        some (.ret ("210.3-alpha".toList, none)) ∧
      validVersionFormat "210.3-alpha".toList = false := by
  decide

/-- C5. Without pre-releases, for a fetched body, `getTFLatestImplicit`
returns what the resolver `SemVerParser` returns for the constraint
`"~> " ++ version` and the stable-mode list extracted from the body: the
resolver's version with a nil error on success, the empty string with the
resolver's error on failure. -/
theorem getTFLatestImplicit_stable (SemVerParser : Resolver) (http : HttpGet)
    (mirrorURL body version : GoString)
    (h : getTFURLBody http mirrorURL = .ret (body, none)) :
    (∀ semv, SemVerParser ("~> ".toList ++ version) (getVersionsFromBody body false []) =
        (semv, none) →
      getTFLatestImplicit SemVerParser http mirrorURL false version =
        some (.ret (semv, none))) ∧
    (∀ semv err, SemVerParser ("~> ".toList ++ version) (getVersionsFromBody body false []) =
        (semv, some err) →
      getTFLatestImplicit SemVerParser http mirrorURL false version =
        some (.ret ([], some err))) := by
  constructor
  · intro semv hs
    simp only [getTFLatestImplicit, getTFList, h, Bool.false_eq_true, if_false, hs]
  · intro semv err hs
    simp only [getTFLatestImplicit, getTFList, h, Bool.false_eq_true, if_false, hs]

theorem getTFLatestImplicit_stable_witness :
    getTFLatestImplicit
        (fun _ tflist =>
          match tflist with
          | [] => ([], some "no version found")
          | v :: _ => (v, none))
        (serving "<a href=\"/0.1.5/\">".toList)
        "https://releases.hashicorp.com/terraform".toList false "0.1".toList =
        some (.ret ("0.1.5".toList, none)) ∧
      getTFLatestImplicit
        (fun _ tflist =>
          match tflist with
          | [] => ([], some "no version found")
          | v :: _ => (v, none))
        (serving "<html></html>".toList)
        "https://releases.hashicorp.com/terraform".toList false "0.1".toList =
        some (.ret ([], some "no version found")) :=
  ⟨(getTFLatestImplicit_stable _ (serving "<a href=\"/0.1.5/\">".toList)
      "https://releases.hashicorp.com/terraform".toList "<a href=\"/0.1.5/\">".toList
      "0.1".toList (by decide)).1 "0.1.5".toList (by decide),
   (getTFLatestImplicit_stable _ (serving "<html></html>".toList)
      "https://releases.hashicorp.com/terraform".toList "<html></html>".toList
      "0.1".toList (by decide)).2 [] "no version found" (by decide)⟩

/-! ## The validators on the documented examples -/

/-- C12, at a failing input. The class `[a-zA-z]` of the source runs from `A`
to `z` and so holds the underscore: `validVersionFormat` accepts `1.2.3-_`,
which the pattern with `[A-Za-z]` rejects. -/
theorem validVersionFormat_accepts_underscore :
    validVersionFormat "1.2.3-_".toList = true ∧
      fullVersionSpec.MatchString "1.2.3-_".toList = false := by
  decide

/-- C14. The validators classify the documented examples as documented. -/
theorem validators_examples :
    validVersionFormat "1.2.3".toList = true ∧
      validVersionFormat "0.1.2".toList = true ∧
      validVersionFormat "1.2.3-beta1".toList = true ∧
      validVersionFormat "0.1.2-beta1".toList = true ∧
      validVersionFormat "1.2.3-alpha".toList = true ∧
      validVersionFormat "a.1.2".toList = false ∧
      validVersionFormat "0.1. 2".toList = false ∧
      validMinorVersionFormat "0.1".toList = true ∧
      validMinorVersionFormat "0.1.2".toList = false ∧
      validMinorVersionFormat "a.1".toList = false ∧
      validMinorVersionFormat "a.1.2".toList = false := by
  decide

/-- C17, at a failing input. The pattern of the pre-release branch is not
anchored on the left: for the minor version `0.1` and the listed version
`10.1.0-beta1` it matches from the second rune on and the branch returns
`0.1.0-beta1`, which the listing does not contain. -/
theorem getTFLatestImplicit_unlisted :
    validMinorVersionFormat "0.1".toList = true ∧
      getTFLatestImplicit (fun _ _ => ([], none))
        (serving "<a href=\"/10.1.0-beta1/\">".toList)
        "https://releases.hashicorp.com/terraform".toList true "0.1".toList =
        some (.ret ("0.1.0-beta1".toList, none)) ∧
      getVersionsFromBody "<a href=\"/10.1.0-beta1/\">".toList true [] =
        ["10.1.0-beta1".toList] ∧
      "0.1.0-beta1".toList ∉ getVersionsFromBody "<a href=\"/10.1.0-beta1/\">".toList true [] := by
  decide

/-- C18, at a failing input. The body has two lines and no match: the
stable-mode list is empty, and the loop of `getTFLatest`, which runs over the
bytes of the body, panics at `bodyLines[2]`. -/
theorem getTFLatest_disagrees_with_extraction :
    getVersionsFromBody "<html>\n</html>".toList false [] = [] ∧
      getTFLatest (serving "<html>\n</html>".toList)
        "https://releases.hashicorp.com/terraform".toList = .panic := by
  decide

/-- C15. For a requested string that does not satisfy
`validMinorVersionFormat`, whatever the network, the mirror and the flag,
`ShowLatestImplicitVersion` only calls `PrintInvalidMinorTFVersion`: its events
hold no `http.Get`. -/
theorem ShowLatestImplicitVersion_invalid (SemVerParser : Resolver) (http : HttpGet)
    (requestedVersion mirrorURL : GoString) (preRelease : Bool)
    (h : validMinorVersionFormat requestedVersion = false) :
    ShowLatestImplicitVersion SemVerParser http requestedVersion mirrorURL preRelease =
        some [Event.PrintInvalidMinorTFVersion] ∧
      ∀ events, ShowLatestImplicitVersion SemVerParser http requestedVersion mirrorURL
          preRelease = some events → ∀ url, Event.httpGet url ∉ events := by
  have h1 : ShowLatestImplicitVersion SemVerParser http requestedVersion mirrorURL preRelease =
      some [Event.PrintInvalidMinorTFVersion] := by
    unfold ShowLatestImplicitVersion
    rw [h]
    rfl
  refine ⟨h1, ?_⟩
  intro events he url
  rw [h1] at he
  cases he
  simp

theorem ShowLatestImplicitVersion_invalid_witness :
    ShowLatestImplicitVersion (fun _ _ => ([], none)) (serving "<a href=\"/0.1.2/\">".toList)
        "0.1.2".toList "https://releases.hashicorp.com/terraform".toList false =
        some [Event.PrintInvalidMinorTFVersion] ∧
      ShowLatestImplicitVersion (fun _ l => (l.headD [], none))
        (serving "<a href=\"/0.1.2/\">".toList)
        "0.1".toList "https://releases.hashicorp.com/terraform".toList false =
        some [Event.httpGet "https://releases.hashicorp.com/terraform/".toList,
          Event.printf "0.1.2\n".toList] :=
  ⟨(ShowLatestImplicitVersion_invalid (fun _ _ => ([], none))
      (serving "<a href=\"/0.1.2/\">".toList) "0.1.2".toList
      "https://releases.hashicorp.com/terraform".toList false (by decide)).1, by decide⟩

/-- C16. When the fetch of the page succeeds, `getTFList` returns a nil error
and exactly the list that `getVersionsFromBody` extracts from the body in the
given mode; for the empty body and for a body without a match of the mode's
pattern that list is empty. -/
theorem getTFList_fetched (http : HttpGet) (mirrorURL body : GoString) (preRelease : Bool)
    (h : getTFURLBody http mirrorURL = .ret (body, none)) :
    getTFList http mirrorURL preRelease =
        .ret (getVersionsFromBody body preRelease [], none) ∧
      (body = [] → getTFList http mirrorURL preRelease = .ret ([], none)) ∧
      ((if preRelease then semverPre else semverStable).MatchString body = false →
        getTFList http mirrorURL preRelease = .ret ([], none)) := by
  have h1 : getTFList http mirrorURL preRelease =
      .ret (getVersionsFromBody body preRelease [], none) := by
    unfold getTFList
    rw [h]
  refine ⟨h1, ?_, ?_⟩
  · intro hb
    subst hb
    rw [h1]
    cases preRelease <;> rfl
  · intro hm
    rw [h1]
    unfold getVersionsFromBody Regexp.FindAllString
    unfold Regexp.MatchString at hm
    have hs : (if preRelease then semverPre else semverStable).search true body = none := by
      cases hsr : (if preRelease then semverPre else semverStable).search true body with
      | none => rfl
      | some x => rw [hsr] at hm; simp at hm
    simp only [Regexp.allMatches_succ, hs, List.map_nil, List.append_nil]

theorem getTFList_fetched_witness :
    getTFList (serving "<html></html>".toList) "https://releases.hashicorp.com/terraform".toList
        true = .ret ([], none) :=
  (getTFList_fetched (serving "<html></html>".toList)
    "https://releases.hashicorp.com/terraform".toList "<html></html>".toList true
    (by decide)).2.2 (by decide)

/-- C13. The function `validMinorVersionFormat` accepts exactly the strings
made of a non-empty run of ASCII digits, a dot and a non-empty run of ASCII
digits; it accepts no string that `validVersionFormat` accepts. -/
theorem validMinorVersionFormat_shape (s : GoString) :
    (validMinorVersionFormat s = true ↔ ∃ a b, IsDigits a ∧ IsDigits b ∧ s = a ++ '.' :: b) ∧
      (validVersionFormat s = true → validMinorVersionFormat s = false) := by
  have hiff : validMinorVersionFormat s = true ↔
      ∃ a b, IsDigits a ∧ IsDigits b ∧ s = a ++ '.' :: b := by
    rw [validMinorVersionFormat_iff]
    constructor
    · rintro ⟨a, r, rfl, ha, d, b, rfl, ⟨x, hx, rfl⟩, hb⟩
      rw [lit_test] at hx
      subst hx
      exact ⟨a, b, (plus_digit_iff a).mp ha, (plus_digit_iff b).mp hb, by simp⟩
    · rintro ⟨a, b, ha, hb, rfl⟩
      exact ⟨a, '.' :: b, rfl, (plus_digit_iff a).mpr ha, ['.'], b, rfl,
        ⟨'.', by simp [CharClass.test], rfl⟩, (plus_digit_iff b).mpr hb⟩
  refine ⟨hiff, ?_⟩
  intro hfull
  cases hmin : validMinorVersionFormat s with
  | false => rfl
  | true =>
    exfalso
    obtain ⟨a, b, ha, hb, rfl⟩ := hiff.mp hmin
    obtain ⟨xyz, pre, hs, hxyz, _⟩ := (validVersionFormat_iff _).mp hfull
    obtain ⟨a2, b2, c2, ha2, _, _, rfl⟩ := (reXYZ_iff xyz).mp hxyz
    have hnd : ∀ (w : GoString), IsDigits w → ∀ x ∈ w, x ≠ '.' := by
      intro w hw x hx
      exact (digit_not_cut x ((digit_test_iff x).mpr (hw.2 x hx))).2.2.2.1
    have hs' : a ++ '.' :: b = a2 ++ '.' :: (b2 ++ '.' :: c2 ++ pre) := by
      rw [hs]; simp
    obtain ⟨_, hb2⟩ := split_at_first '.' a a2 b _ (hnd a ha) (hnd a2 ha2) hs'
    exact hnd b hb '.' (by rw [hb2]; simp) rfl

theorem validMinorVersionFormat_shape_witness :
    validMinorVersionFormat "0.12".toList = true ∧
      validMinorVersionFormat "0.12.3".toList = false :=
  ⟨(validMinorVersionFormat_shape "0.12".toList).1.mpr
      ⟨['0'], ['1', '2'], by unfold IsDigits IsAsciiDigit; decide,
        by unfold IsDigits IsAsciiDigit; decide, rfl⟩,
    (validMinorVersionFormat_shape "0.12.3".toList).2 (by decide)⟩

/-! ## Duplicates, continued -/

theorem keepFirstByKey_mem :
    ∀ (elements earlier : List GoString) (x : GoString), x ∈ keepFirstByKey earlier elements →
      x ∈ elements ∧ ∀ e ∈ earlier, comparisonKey e ≠ comparisonKey x := by
  intro elements
  induction elements with
  | nil => intro earlier x h; simp [keepFirstByKey] at h
  | cons val rest ih =>
    intro earlier x h
    unfold keepFirstByKey at h
    split at h
    · rename_i hall
      rcases List.mem_cons.mp h with rfl | h
      · refine ⟨List.mem_cons_self _ _, ?_⟩
        simpa using hall
      · obtain ⟨h1, h2⟩ := ih _ x h
        exact ⟨List.mem_cons_of_mem _ h1, fun e he => h2 e (List.mem_append_left _ he)⟩
    · obtain ⟨h1, h2⟩ := ih _ x h
      exact ⟨List.mem_cons_of_mem _ h1, fun e he => h2 e (List.mem_append_left _ he)⟩

theorem keepFirstByKey_pairwise :
    ∀ (elements earlier : List GoString),
      (keepFirstByKey earlier elements).Pairwise
        (fun a b => comparisonKey a ≠ comparisonKey b) := by
  intro elements
  induction elements with
  | nil => intro earlier; simp [keepFirstByKey]
  | cons val rest ih =>
    intro earlier
    unfold keepFirstByKey
    split
    · refine List.Pairwise.cons ?_ (ih _)
      intro x hx
      exact (keepFirstByKey_mem rest _ x hx).2 val (by simp)
    · exact ih _

theorem keepFirstByKey_id :
    ∀ (elements earlier : List GoString),
      elements.Pairwise (fun a b => comparisonKey a ≠ comparisonKey b) →
      (∀ x ∈ elements, ∀ e ∈ earlier, comparisonKey e ≠ comparisonKey x) →
      keepFirstByKey earlier elements = elements := by
  intro elements
  induction elements with
  | nil => intro earlier _ _; simp [keepFirstByKey]
  | cons val rest ih =>
    intro earlier hp hE
    unfold keepFirstByKey
    have hall : earlier.all (fun e => decide (comparisonKey e ≠ comparisonKey val)) = true := by
      simp only [List.all_eq_true, decide_eq_true_eq]
      exact fun e he => hE val (List.mem_cons_self _ _) e he
    rw [if_pos hall]
    have hp' := List.pairwise_cons.mp hp
    rw [ih (earlier ++ [val]) hp'.2 ?_]
    intro x hx e he
    rcases List.mem_append.mp he with he | he
    · exact hE x (List.mem_cons_of_mem _ hx) e he
    · rw [List.mem_singleton] at he
      subst he
      exact hp'.1 x hx

/-- C20. The function `removeDuplicateVersions` is idempotent, and no two
elements of its output have the same comparison key, the element trimmed of
the runes of `" *recent"`. -/
theorem removeDuplicateVersions_idempotent (elements : List GoString) :
    removeDuplicateVersions (removeDuplicateVersions elements) =
        removeDuplicateVersions elements ∧
      (removeDuplicateVersions elements).Pairwise
        (fun a b => Trim a " *recent".toList ≠ Trim b " *recent".toList) := by
  have h : ∀ l, removeDuplicateVersions l = keepFirstByKey [] l := by
    intro l
    unfold removeDuplicateVersions
    rw [removeDuplicateVersionsLoop_eq l [] [] [] (by simp)]
    simp
  have hp := keepFirstByKey_pairwise elements []
  constructor
  · rw [h (removeDuplicateVersions elements), h elements]
    exact keepFirstByKey_id _ [] hp (by simp)
  · rw [h elements]
    simpa only [Trim_marker] using hp

theorem dropRightWhile_keep (p : Char → Bool) (d : Char) (b : GoString) (hd : p d = false)
    (hb : ∀ x ∈ b, p x = true) :
    ∀ init : GoString, dropRightWhile p (init ++ d :: b) = init ++ [d] := by
  intro init
  induction init with
  | nil =>
    have := dropRightWhile_core p b hb [d] (by simp) (by simpa using hd)
    simpa using this
  | cons c init ih =>
    rw [List.cons_append]
    unfold dropRightWhile
    rw [ih]
    cases init <;> simp

/-- The comparison key of an entry that begins and ends outside the marker
runes, followed by marker runes only, is the entry. -/
theorem comparisonKey_keep (v b init t : GoString) (h d : Char) (hv1 : v = h :: t)
    (hv2 : v = init ++ [d]) (hh : h ∉ markerRunes) (hd : d ∉ markerRunes)
    (hb : ∀ x ∈ b, x ∈ markerRunes) : comparisonKey (v ++ b) = v := by
  unfold comparisonKey
  have h1 : (v ++ b).dropWhile (fun c => decide (c ∈ markerRunes)) = v ++ b := by
    rw [hv1, List.cons_append, List.dropWhile_cons_of_neg (by simpa using hh)]
  rw [h1, hv2, List.append_assoc, List.singleton_append]
  exact dropRightWhile_keep _ d b (by simpa using hd) (by simpa using hb) init

theorem digit_not_marker (x : Char) (h : IsAsciiDigit x) : x ∉ markerRunes := by
  have hx := (digit_test_iff x).mpr h
  intro hm
  simp only [markerRunes, List.mem_cons, List.mem_singleton, List.not_mem_nil, or_false] at hm
  rcases hm with rfl | rfl | rfl | rfl | rfl | rfl | rfl <;> revert hx <;> decide

/-- A full version string begins with a digit. -/
theorem valid_head_digit (v : GoString) (hv : validVersionFormat v = true) :
    ∃ h t, v = h :: t ∧ IsAsciiDigit h := by
  obtain ⟨xyz, pre, rfl, hxyz, _⟩ := (validVersionFormat_iff v).mp hv
  obtain ⟨a, b, c, ha, _, _, rfl⟩ := (reXYZ_iff xyz).mp hxyz
  cases a with
  | nil => exact absurd rfl ha.1
  | cons h a' =>
    exact ⟨h, a' ++ '.' :: (b ++ '.' :: c) ++ pre, by simp, ha.2 h (List.mem_cons_self _ _)⟩

theorem removeDuplicateVersions_eq_keepFirst (elements : List GoString) :
    removeDuplicateVersions elements = keepFirstByKey [] elements := by
  unfold removeDuplicateVersions
  rw [removeDuplicateVersionsLoop_eq elements [] [] [] (by simp)]
  simp

/-- C11. On the documented example `removeDuplicateVersions` returns
`["1.2.3", "1.2.4"]`. For every full version string `v` that ends in a digit
and every list `rest`, on `v :: (v ++ " *recent") :: rest` it keeps `v` first,
drops the decorated copy and keeps, from `rest`, no copy of `v` or of
`v ++ " *recent"`. -/
theorem removeDuplicateVersions_decorated :
    removeDuplicateVersions ["1.2.3".toList, "1.2.3 *recent".toList, "1.2.4".toList] =
        ["1.2.3".toList, "1.2.4".toList] ∧
      ∀ (v : GoString) (rest : List GoString), validVersionFormat v = true →
        (∃ init d, v = init ++ [d] ∧ IsAsciiDigit d) →
        ∃ tail, removeDuplicateVersions (v :: (v ++ " *recent".toList) :: rest) = v :: tail ∧
          tail.Sublist rest ∧ v ∉ tail ∧ (v ++ " *recent".toList) ∉ tail := by
  refine ⟨by decide, ?_⟩
  intro v rest hv hlast
  obtain ⟨h, t, hv1, hh⟩ := valid_head_digit v hv
  obtain ⟨init, d, hv2, hd⟩ := hlast
  have hk1 : comparisonKey v = v := by
    have := comparisonKey_keep v [] init t h d hv1 hv2 (digit_not_marker h hh)
      (digit_not_marker d hd) (by simp)
    simpa using this
  have hk2 : comparisonKey (v ++ " *recent".toList) = v :=
    comparisonKey_keep v _ init t h d hv1 hv2 (digit_not_marker h hh)
      (digit_not_marker d hd) (by decide)
  refine ⟨keepFirstByKey [v, v ++ " *recent".toList] rest, ?_,
    keepFirstByKey_sublist rest _, ?_, ?_⟩
  · rw [(removeDuplicateVersions_eq_keepFirst _)]
    have e1 : keepFirstByKey [] (v :: (v ++ " *recent".toList) :: rest) =
        v :: keepFirstByKey [v] ((v ++ " *recent".toList) :: rest) := by
      rw [keepFirstByKey]; simp
    have e2 : keepFirstByKey [v] ((v ++ " *recent".toList) :: rest) =
        keepFirstByKey [v, v ++ " *recent".toList] rest := by
      have hnot : ¬ ([v].all (fun e =>
          decide (comparisonKey e ≠ comparisonKey (v ++ " *recent".toList))) = true) := by
        rw [hk2]
        simp only [List.all_cons, List.all_nil, Bool.and_true, hk1]
        simp
      rw [keepFirstByKey, if_neg hnot]
      rfl
    rw [e1, e2]
  · intro hm
    exact (keepFirstByKey_mem rest _ v hm).2 v (by simp) rfl
  · intro hm
    exact (keepFirstByKey_mem rest _ _ hm).2 (v ++ " *recent".toList) (by simp) rfl

theorem removeDuplicateVersions_decorated_witness :
    ∃ tail, removeDuplicateVersions
        ("1.2.3-beta1".toList :: ("1.2.3-beta1".toList ++ " *recent".toList) ::
          ["1.2.4".toList, "1.2.3-beta1".toList]) = "1.2.3-beta1".toList :: tail ∧
      tail.Sublist ["1.2.4".toList, "1.2.3-beta1".toList] ∧ "1.2.3-beta1".toList ∉ tail ∧
      ("1.2.3-beta1".toList ++ " *recent".toList) ∉ tail :=
  removeDuplicateVersions_decorated.2 "1.2.3-beta1".toList
    ["1.2.4".toList, "1.2.3-beta1".toList] (by decide)
    ⟨"1.2.3-beta".toList, '1', rfl, by unfold IsAsciiDigit; decide⟩

/-! ## Stable mode against pre-release mode -/

/-- The runes of a word of the stable pattern: no dash, and a dot. -/
theorem semverStable_runes (w : GoString) (h : semverStable.re.Matches w) :
    '.' ∈ w ∧ ∀ x ∈ w, x ≠ '-' := by
  obtain ⟨s1, core, s2, rfl, h1, hc, h2⟩ := (semverStable_words w).mp h
  refine ⟨by simp [reXYZ_has_dot core hc], ?_⟩
  intro x hx
  simp only [List.mem_append, List.mem_singleton] at hx
  rcases hx with ((hx | hx) | hx) | hx
  · rcases optSlash s1 h1 with rfl | rfl
    · simp at hx
    · simp at hx; subst hx; decide
  · rcases reXYZ_runes core hc x hx with rfl | hd
    · decide
    · exact (digit_not_cut x hd).2.2.1
  · rcases optSlash s2 h2 with rfl | rfl
    · simp at hx
    · simp at hx; subst hx; decide
  · subst hx; decide

/-- A word of the pre-release pattern that is not a word of the stable pattern
has a pre-release tag: it is cut by a dash after which no dot comes. -/
theorem semverPre_tagged (w : GoString) (h : semverPre.re.Matches w)
    (hn : ¬ semverStable.re.Matches w) :
    ∃ X Y, w = X ++ '-' :: Y ∧ '.' ∉ Y := by
  obtain ⟨s1, core, s2, rfl, h1, ⟨xyz, pre, rfl, hx, hp⟩, h2⟩ := (semverPre_words w).mp h
  rcases hp with rfl | hp
  · exfalso
    apply hn
    rw [List.append_nil]
    exact (semverStable_words _).mpr ⟨s1, xyz, s2, rfl, h1, hx, h2⟩
  · obtain ⟨dash, r, rfl, ⟨y, hy, rfl⟩, l, d, rfl, hl, hdg⟩ := hp
    rw [lit_test] at hy
    subst hy
    refine ⟨s1 ++ xyz, l ++ d ++ s2 ++ ['"'], by simp, ?_⟩
    intro hdot
    simp only [List.mem_append, List.mem_singleton] at hdot
    rcases hdot with ((hdot | hdot) | hdot) | hdot
    · exact (letters_not_cut _ (hl.2 _ hdot)).2.2.2.1 rfl
    · exact (digit_not_cut _ (hdg _ hdot)).2.2.2.1 rfl
    · rcases optSlash s2 h2 with rfl | rfl
      · simp at hdot
      · revert hdot; decide
    · revert hdot; decide

/-- Inside a word of the pre-release pattern at whose head the stable pattern
does not match, the stable pattern matches nowhere. -/
theorem no_stable_inside (w rest : GoString) (hw : semverPre.re.Matches w)
    (hnone : semverStable.matchHere (w ++ rest) = none) :
    ∀ x, x ≠ [] → x <:+ w → semverStable.matchHere (x ++ rest) = none := by
  intro x hne hsuf
  cases hm : semverStable.matchHere (x ++ rest) with
  | none => rfl
  | some r =>
    exfalso
    have hnst : ¬ semverStable.re.Matches w := by
      intro hst
      rw [semverStable_matchHere w rest hst] at hnone
      cases hnone
    obtain ⟨y, hy, hmat, _⟩ := semverStable.matchHere_sound _ r hm
    obtain ⟨u', hw', _, hu'⟩ := semverPre_quote w hw
    obtain ⟨u, hyu, _, hu⟩ := semverPre_quote y (semverStable_sub_semverPre y hmat)
    -- the suffix `x` of `w` stops at the quote of `w`, as the word `y` does
    have hx : ∃ x0, x0 <:+ u' ∧ x = x0 ++ ['"'] := by
      rw [hw'] at hsuf
      rcases suffix_append_cons '"' [] u' x hsuf with h0 | h0
      · exact absurd (List.suffix_nil.mp h0) hne
      · exact h0
    obtain ⟨x0, hx0, rfl⟩ := hx
    have hxy : x0 ++ ['"'] = y := by
      rw [hyu]
      rw [hyu] at hy
      simp only [List.append_assoc, List.singleton_append] at hy
      obtain ⟨e, _⟩ := split_at_first '"' x0 u rest r
        (fun z hz => (hu' z (hx0.subset hz)).1) (fun z hz => (hu z hz).1) hy
      rw [e]
    rw [hxy] at hsuf
    obtain ⟨hdot, hdash⟩ := semverStable_runes y hmat
    obtain ⟨X, Y, hXY, hY⟩ := semverPre_tagged w hw hnst
    rw [hXY] at hsuf
    rcases suffix_append_cons '-' Y X y hsuf with h1 | ⟨X', _, h1⟩
    · exact hY (h1.subset hdot)
    · exact hdash '-' (by rw [h1]; simp) rfl

/-- All matches of the stable pattern are, in order, among all matches of the
pre-release pattern. -/
theorem allMatches_stable_sublist :
    ∀ (n : Nat) (s : GoString), s.length ≤ n → ∀ (a b a' b' : Bool),
      (semverStable.allMatches (s.length + 2) a b s).Sublist
        (semverPre.allMatches (s.length + 2) a' b' s) := by
  intro n
  induction n with
  | zero =>
    intro s hs a b a' b'
    have : s = [] := List.length_eq_zero.mp (Nat.le_zero.mp hs)
    subst this
    rw [semverStable.allMatches_unfold semverStable_ne_nil, semverStable.search_flag rfl]
    exact List.nil_sublist _
  | succ n ih =>
    intro s hs a b a' b'
    cases s with
    | nil =>
      rw [semverStable.allMatches_unfold semverStable_ne_nil, semverStable.search_flag rfl]
      exact List.nil_sublist _
    | cons c t =>
      have ht : t.length ≤ n := by simpa using hs
      cases hst : semverStable.matchHere (c :: t) with
      | some rest =>
        obtain ⟨w, hw, hmat, _⟩ := semverStable.matchHere_sound _ rest hst
        have hne := semverStable_ne_nil w hmat
        have hlen : rest.length ≤ n := by
          have h1 : (c :: t).length = w.length + rest.length := by rw [hw]; simp
          have h2 : 0 < w.length := List.length_pos.mpr hne
          simp at h1 hs
          omega
        rw [semverStable.allMatches_unfold semverStable_ne_nil,
          semverPre.allMatches_unfold semverPre_ne_nil, hw,
          semverStable.search_hit rfl a w rest (semverStable_matchHere w rest hmat),
          semverPre.search_hit rfl a' w rest
            (semverPre_matchHere w rest (semverStable_sub_semverPre w hmat))]
        exact (ih rest hlen false true false true).cons₂ w
      | none =>
        have e1 : semverStable.allMatches ((c :: t).length + 2) a b (c :: t) =
            semverStable.allMatches (t.length + 2) false true t :=
          semverStable.allMatches_of_search semverStable_ne_nil _ _ _ _ _ _
            (semverStable.search_skip rfl a c t hst)
        cases hpre : semverPre.matchHere (c :: t) with
        | none =>
          have e2 : semverPre.allMatches ((c :: t).length + 2) a' b' (c :: t) =
              semverPre.allMatches (t.length + 2) false true t :=
            semverPre.allMatches_of_search semverPre_ne_nil _ _ _ _ _ _
              (semverPre.search_skip rfl a' c t hpre)
          rw [e1, e2]
          exact ih t ht _ _ _ _
        | some rest =>
          obtain ⟨w, hw, hmat, _⟩ := semverPre.matchHere_sound _ rest hpre
          have hne := semverPre_ne_nil w hmat
          have hlen : rest.length ≤ n := by
            have h1 : (c :: t).length = w.length + rest.length := by rw [hw]; simp
            have h2 : 0 < w.length := List.length_pos.mpr hne
            simp at h1 hs
            omega
          have hnone : semverStable.matchHere (w ++ rest) = none := by rw [← hw]; exact hst
          have e3 : semverStable.allMatches ((c :: t).length + 2) a b (c :: t) =
              semverStable.allMatches (rest.length + 2) false true rest := by
            rw [hw]
            exact semverStable.allMatches_of_search semverStable_ne_nil _ _ _ _ _ _
              (semverStable.search_skip_many rfl rest w a
                (no_stable_inside w rest hmat hnone))
          rw [e3, semverPre.allMatches_unfold semverPre_ne_nil, hw,
            semverPre.search_hit rfl a' w rest (semverPre_matchHere w rest hmat)]
          exact (ih rest hlen false true false true).cons w

/-- C19. For every body, the list extracted in stable mode is a subsequence of
the list extracted from the same body with pre-releases: every stable-mode
entry appears there too, in the same relative order. -/
theorem getVersionsFromBody_stable_sublist (body : GoString) :
    (getVersionsFromBody body false []).Sublist (getVersionsFromBody body true []) := by
  unfold getVersionsFromBody Regexp.FindAllString
  simp only [Bool.false_eq_true, if_false, if_true, List.nil_append]
  exact (allMatches_stable_sublist body.length body (Nat.le_refl _) true false true false).map _

end Lib
